import Mathlib

/-!
Shallow embedding of the OpenScope Credit-Assignment analysis code
(`src/analysis/session.py`, `src/analysis/quint_analys.py`,
`src/analysis/signif_grps.py`) and proofs about it.

Conventions used throughout:
* pandas dataframes become lists of `Row` records; a column is a projection;
* numpy float arithmetic becomes exact `ℚ` arithmetic (all quantities involved
  are ratios of machine integers, so the float computations are exact on the
  inputs considered here and `ℚ` is the idealisation of the float semantics);
* `NaN` cells become `Option` values (`none` = NaN); comparisons against NaN
  are false, as in IEEE semantics;
* Python `raise ValueError` becomes `Except.error`;
* Python sets (whose iteration order is arbitrary) become `Finset`s.

Helpers from `util/gen_util.py` and `util/math_util.py` are not part of the
sources; where they are needed they are modelled from the specification and
are marked `Modelled from the spec:` in their doc comments.
-/

deriving instance DecidableEq for Except

namespace OpenScope

/-- One row of `sess.stim_df` (the stimulus dataframe): the columns read by
`Stim.get_segs_by_criteria` / `Stim._format_stim_criteria`. All categorical
columns are encoded as integers (string categories such as brick directions
are identified with integer codes, which is faithful because the code only
ever compares them for equality / membership). -/
structure Row where
  stimType : ℤ
  stimPar1 : ℤ
  stimPar2 : ℤ
  surp : ℤ
  stimSeg : ℤ
  gabfr : ℤ
  start2pfr : ℤ
  end2pfr : ℤ
  num2pfr : ℤ
deriving DecidableEq, Repr

/-- The stimulus type of a `Stim` object (`self.stimtype` in `session.py`). -/
inductive Stimtype where
  | gabors : Stimtype
  | bricks : Stimtype
deriving DecidableEq, Repr

/-- The part of a `Stim` object (with its `Session`) that the segment queries
read: the stimulus type, the dataframe code of the stimulus type
(`self.stimtype[0]` compared against the `stimType` column), the session
stimulus dataframe `self.sess.stim_df`, and `self.block_ran_seg`
(display sequence x block x [start, end (excl)] segment ranges). -/
structure Stim where
  stimtype : Stimtype
  stimtypeChar : ℤ
  df : List Row
  block_ran_seg : List (List (ℤ × ℤ))

/-- A value criterion for an `isin` column: `none` is the `'any'` (or `None`)
sentinel, `some l` a list of allowed values (a scalar being a one-element
list, as produced by `gen_util.list_if_not`). -/
abbrev ValCrit := Option (List ℤ)

/-- A gabor/brick override criterion: `none` is Python `None` (argument not
passed), `some none` is `'any'`, `some (some l)` a list of values. -/
abbrev OptCrit := Option ValCrit

/-- All values observed in a column of the dataframe.

Modelled from the spec: `gen_util.get_df_label_vals(df, col, 'any')` resolves
the `'any'` sentinel to "all observed values for that column, computed from
the live table". Duplicates are kept (harmless: the list is only used for
membership tests). -/
def colVals (df : List Row) (f : Row → ℤ) : List ℤ :=
  df.map f

/-- Values observed in a column among the rows of one stimulus type.

Modelled from the spec: `gen_util.get_df_vals(df, 'stimType', stimtype, col)`
returns the values of `col` for the rows whose `stimType` matches. -/
def dfVals (df : List Row) (c : ℤ) (f : Row → ℤ) : List ℤ :=
  (df.filter (fun r => r.stimType == c)).map f

/-- Resolution of a `ValCrit` against the live dataframe: `'any'`/`None`
become the observed values of the column, a list stays itself
(`gen_util.get_df_label_vals`, modelled from the spec as documented in
`colVals`). -/
def resolveVal (df : List Row) (f : Row → ℤ) : ValCrit → List ℤ
  | none => colVals df f
  | some l => l

/-- Contribution of one gabor/brick override argument (`gabk`, `gab_ori`,
`bri_size`, `bri_dir`) to the `sp1`/`sp2` accumulators in
`Session._format_stim_criteria`: `None` contributes nothing, `'any'` is
replaced by the observed values for this stimulus type
(`gen_util.get_df_vals`), a list contributes itself. -/
def overrideVals (df : List Row) (c : ℤ) (f : Row → ℤ) : OptCrit → List ℤ
  | none => []
  | some none => dfVals df c f
  | some (some l) => l

/-- The resolved criteria returned by `Session._format_stim_criteria`:
allowed-value lists for the five `isin` columns and `[min, max (excl))`
bounds for the three 2p-frame range columns. -/
structure ResolvedCrit where
  stimPar1 : List ℤ
  stimPar2 : List ℤ
  surp : List ℤ
  stimSeg : List ℤ
  gabfr : List ℤ
  start2pfr_min : ℤ
  start2pfr_max : ℤ
  end2pfr_min : ℤ
  end2pfr_max : ℤ
  num2pfr_min : ℤ
  num2pfr_max : ℤ

/-- Minimum of an integer list (`np.min`); the default for the empty list is
never used on the paths of interest, which guard for emptiness. -/
def listMin (l : List ℤ) : ℤ :=
  (l.minimum).untop' 0

/-- Maximum of an integer list (`np.max`). -/
def listMax (l : List ℤ) : ℤ :=
  (l.maximum).unbot' 0

/-- `Session._format_stim_criteria` (session.py): strips the overrides not
relevant to the stimulus type, folds the gabor/brick overrides into the two
generic parameter columns (`gabk`/`bri_dir` into `stimPar2`, `gab_ori`/
`bri_size` into `stimPar1`), resolves `'any'` sentinels against the live
dataframe, removes the `-1` grayscreen sentinel from the allowed segment
values, and resolves the `'any'` 2p-frame ranges to
`[column min, column max + 1)`. -/
def format_stim_criteria (stim : Stim)
    (stimPar1 stimPar2 surp stimSeg gabfr : ValCrit)
    (start2pfr end2pfr num2pfr : Option (ℤ × ℤ))
    (gabk gab_ori bri_size bri_dir : OptCrit) : ResolvedCrit :=
  -- remove brick criteria for gabors and vv
  let gabfr' := match stim.stimtype with
    | .gabors => gabfr
    | .bricks => none
  let gabk' := match stim.stimtype with
    | .gabors => gabk
    | .bricks => none
  let gab_ori' := match stim.stimtype with
    | .gabors => gab_ori
    | .bricks => none
  let bri_size' := match stim.stimtype with
    | .gabors => none
    | .bricks => bri_size
  let bri_dir' := match stim.stimtype with
    | .gabors => none
    | .bricks => bri_dir
  -- pars = [gabk, gab_ori, bri_size, bri_dir] feeding sp2, sp1, sp1, sp2
  let sp1 := overrideVals stim.df stim.stimtypeChar (fun r => r.stimPar1) gab_ori'
      ++ overrideVals stim.df stim.stimtypeChar (fun r => r.stimPar1) bri_size'
  let sp2 := overrideVals stim.df stim.stimtypeChar (fun r => r.stimPar2) gabk'
      ++ overrideVals stim.df stim.stimtypeChar (fun r => r.stimPar2) bri_dir'
  let stimPar1' := if sp1 ≠ [] then some sp1 else stimPar1
  let stimPar2' := if sp2 ≠ [] then some sp2 else stimPar2
  { stimPar1 := resolveVal stim.df (fun r => r.stimPar1) stimPar1'
    stimPar2 := resolveVal stim.df (fun r => r.stimPar2) stimPar2'
    surp := resolveVal stim.df (fun r => r.surp) surp
    -- here, ensure that the -1s are removed
    stimSeg := (resolveVal stim.df (fun r => r.stimSeg) stimSeg).filter (fun v => v ≠ -1)
    gabfr := resolveVal stim.df (fun r => r.gabfr) gabfr'
    start2pfr_min := match start2pfr with
      | none => listMin (colVals stim.df (fun r => r.start2pfr))
      | some p => p.1
    start2pfr_max := match start2pfr with
      | none => listMax (colVals stim.df (fun r => r.start2pfr)) + 1
      | some p => p.2
    end2pfr_min := match end2pfr with
      | none => listMin (colVals stim.df (fun r => r.end2pfr))
      | some p => p.1
    end2pfr_max := match end2pfr with
      | none => listMax (colVals stim.df (fun r => r.end2pfr)) + 1
      | some p => p.2
    num2pfr_min := match num2pfr with
      | none => listMin (colVals stim.df (fun r => r.num2pfr))
      | some p => p.1
    num2pfr_max := match num2pfr with
      | none => listMax (colVals stim.df (fun r => r.num2pfr)) + 1
      | some p => p.2 }

/-- The row predicate of the dataframe query in `Stim.get_segs_by_criteria`:
the conjunction of the `stimType` equality, the five `isin` membership tests,
the three half-open 2p-frame-range tests, and the `[j0, j1)` block segment
range test. -/
def rowMatches (rc : ResolvedCrit) (c : ℤ) (blk : ℤ × ℤ) (r : Row) : Bool :=
  r.stimType == c &&
  decide (r.stimPar1 ∈ rc.stimPar1) &&
  decide (r.stimPar2 ∈ rc.stimPar2) &&
  decide (r.surp ∈ rc.surp) &&
  decide (r.stimSeg ∈ rc.stimSeg) &&
  decide (r.gabfr ∈ rc.gabfr) &&
  decide (rc.start2pfr_min ≤ r.start2pfr) &&
  decide (r.start2pfr < rc.start2pfr_max) &&
  decide (rc.end2pfr_min ≤ r.end2pfr) &&
  decide (r.end2pfr < rc.end2pfr_max) &&
  decide (rc.num2pfr_min ≤ r.num2pfr) &&
  decide (r.num2pfr < rc.num2pfr_max) &&
  decide (blk.1 ≤ r.stimSeg) &&
  decide (r.stimSeg < blk.2)

/-- The "removing consecutive values" loop of `Stim.get_segs_by_criteria`:
keeps element `k` iff `k == 0` or the value differs from the previous
(original) value plus one. -/
def remconsecAux : ℤ → List ℤ → List ℤ
  | _, [] => []
  | prev, y :: ys => (if y = prev + 1 then [] else [y]) ++ remconsecAux y ys

/-- `remconsec` collapse of a segment list (first element always kept). -/
def remconsecFilter : List ℤ → List ℤ
  | [] => []
  | x :: xs => x :: remconsecAux x xs

/-- The per-block segment list (`idxs` in `Stim.get_segs_by_criteria`):
`stimSeg` values of the matching rows, optionally remconsec-collapsed. -/
def blockIdxs (stim : Stim) (rc : ResolvedCrit) (remconsec : Bool)
    (blk : ℤ × ℤ) : List ℤ :=
  let idxs := (stim.df.filter (rowMatches rc stim.stimtypeChar blk)).map
    (fun r => r.stimSeg)
  if remconsec then remconsecFilter idxs else idxs

/-- The display-sequence x block x segment nested structure built by
`Stim.get_segs_by_criteria` before the empty checks. -/
def segsMatrix (stim : Stim) (rc : ResolvedCrit) (remconsec : Bool) :
    List (List (List ℤ)) :=
  stim.block_ran_seg.map (fun i => i.map (blockIdxs stim rc remconsec))

/-- `Stim.get_segs_by_criteria` with `by='seg'` (session.py): builds the
nested per-display-sequence, per-block segment lists, drops the empty inner
and outer lists, raises `ValueError` if nothing is left, and otherwise
returns the doubly-flattened list of segment numbers. -/
def get_segs_by_criteria (stim : Stim) (rc : ResolvedCrit)
    (remconsec : Bool) : Except String (List ℤ) :=
  let segs := ((segsMatrix stim rc remconsec).map
      (fun temp => temp.filter (fun idxs => idxs ≠ []))).filter
      (fun temp => temp ≠ [])
  if segs = [] then
    .error "No segments fit these criteria."
  else
    .ok segs.flatten.flatten

/-- The `StimPar` named-tuple fields that `quint_analys.quint_segs` reads. -/
structure StimParRec where
  gabfr : ValCrit
  gabk : OptCrit
  gab_ori : OptCrit
  bri_size : OptCrit
  bri_dir : OptCrit

/-- Criteria of the first `get_segs_by_criteria` call in `quint_segs` (the
boundary call): only `gabk`, `bri_dir`, `bri_size` are passed, everything
else is left at its `'any'`/`None` default. In particular no surprise
criterion is passed. -/
def quintCall1Crit (stim : Stim) (sp : StimParRec) : ResolvedCrit :=
  format_stim_criteria stim none none none none none none none none
    sp.gabk none sp.bri_size sp.bri_dir

/-- Criteria of the second `get_segs_by_criteria` call in `quint_segs` (the
filtered call): additionally passes `gabfr`, `gab_ori` and the surprise
criterion. -/
def quintCall2Crit (stim : Stim) (sp : StimParRec) (surp : ValCrit) :
    ResolvedCrit :=
  format_stim_criteria stim none none surp none sp.gabfr none none none
    sp.gabk sp.gab_ori sp.bri_size sp.bri_dir

/-- The `try ... except ValueError: if empty_ok: all_segs = []` pattern of
`quint_segs`. -/
def catchEmpty (empty_ok : Bool) :
    Except String (List ℤ) → Except String (List ℤ)
  | .error e => if empty_ok then .ok [] else .error e
  | .ok l => .ok l

/-- The unfiltered segment range `(seg_min, seg_max)` computed by
`quint_segs` from the boundary call (`seg_min = np.min(all_segs)`,
`seg_max = np.max(all_segs) + 1`, both `0` when the call found nothing).
Note that this range does not depend on the surprise filter. -/
def quint_seg_range (stim : Stim) (sp : StimParRec) : ℤ × ℤ :=
  match get_segs_by_criteria stim (quintCall1Crit stim sp) false with
  | .ok l => (listMin l, listMax l + 1)
  | .error _ => (0, 0)

/-- The per-quintile membership test of `quint_segs` as written in the
source: `seg >= q * qu_len + seg_min and seg < (q + 1) * qu_len + seg_min`
with `qu_len = (seg_max - seg_min) / float(n_quints)`. -/
def quBin (seg_min seg_max : ℤ) (n_quints : ℕ) (q : ℕ) (s : ℤ) : Bool :=
  let qu_len : ℚ := ((seg_max : ℚ) - (seg_min : ℚ)) / (n_quints : ℚ)
  decide ((q : ℚ) * qu_len + (seg_min : ℚ) ≤ (s : ℚ)) &&
  decide ((s : ℚ) < ((q : ℚ) + 1) * qu_len + (seg_min : ℚ))

/-- `quint_analys.quint_segs` (quint_analys.py): retrieves the unfiltered
segment range for the stimulus, the criteria-filtered segment list, and
splits the latter into the retained quintiles. `qu_idx = none` is the
`'all'` sentinel (retain all `n_quints` quintiles); an explicit list is
taken as already-normalised nonnegative quintile indices (the normalisation
`gen_util.pos_idx` is the identity on in-range nonnegative indices).
The `by_surp_len` branch (which needs the external `gen_util.consec`) is
not part of any claim and is omitted. -/
def quint_segs (stim : Stim) (sp : StimParRec) (n_quints : ℕ)
    (qu_idx : Option (List ℕ)) (surp : ValCrit)
    (empty_ok remconsec : Bool) :
    Except String (List (List ℤ) × List ℕ) :=
  let quIdx := match qu_idx with
    | none => List.range n_quints
    | some l => l
  match catchEmpty empty_ok
      (get_segs_by_criteria stim (quintCall1Crit stim sp) false) with
  | .error e => .error e
  | .ok _ =>
    let seg_min := (quint_seg_range stim sp).1
    let seg_max := (quint_seg_range stim sp).2
    match catchEmpty empty_ok
        (get_segs_by_criteria stim (quintCall2Crit stim sp surp) remconsec) with
    | .error e => .error e
    | .ok all_segs =>
      let qu_segs := quIdx.map
        (fun q => all_segs.filter (quBin seg_min seg_max n_quints q))
      .ok (qu_segs, qu_segs.map List.length)

/-! ### Basic lemmas about the query embedding -/

theorem listMin_le_of_mem {l : List ℤ} {a : ℤ} (h : a ∈ l) : listMin l ≤ a := by
  unfold listMin
  cases hmin : l.minimum with
  | top =>
    rw [List.minimum_eq_top] at hmin
    subst hmin
    cases h
  | coe m =>
    have := List.minimum_le_of_mem h hmin
    simpa using this

theorem le_listMax_of_mem {l : List ℤ} {a : ℤ} (h : a ∈ l) : a ≤ listMax l := by
  unfold listMax
  cases hmax : l.maximum with
  | bot =>
    rw [List.maximum_eq_bot] at hmax
    subst hmax
    cases h
  | coe m =>
    have := List.le_maximum_of_mem h hmax
    simpa using this

theorem remconsecAux_subset {l : List ℤ} {p x : ℤ} (h : x ∈ remconsecAux p l) :
    x ∈ l := by
  induction l generalizing p with
  | nil => cases h
  | cons y ys ih =>
    simp only [remconsecAux, List.mem_append] at h
    rcases h with h | h
    · by_cases hy : y = p + 1 <;> simp_all
    · exact List.mem_cons_of_mem _ (ih h)

theorem remconsecFilter_subset {l : List ℤ} {x : ℤ}
    (h : x ∈ remconsecFilter l) : x ∈ l := by
  cases l with
  | nil => cases h
  | cons y ys =>
    simp only [remconsecFilter, List.mem_cons] at h
    rcases h with h | h
    · simp [h]
    · exact List.mem_cons_of_mem _ (remconsecAux_subset h)

/-- The flat list of all segments matching the criteria (the doubly-flattened
`segsMatrix`). -/
def matching_segs (stim : Stim) (rc : ResolvedCrit) (remconsec : Bool) :
    List ℤ :=
  (segsMatrix stim rc remconsec).flatten.flatten

theorem filter_ne_nil_flatten {α : Type} [DecidableEq α] (l : List (List α)) :
    (l.filter (fun t => decide (t ≠ []))).flatten = l.flatten := by
  simp only [ne_eq, decide_not]
  induction l with
  | nil => rfl
  | cons t ts ih =>
    by_cases ht : t = []
    · subst ht
      simp [List.filter_cons, ih]
    · simp [List.filter_cons, ht, ih]

theorem filter_ne_nil_eq_nil_iff {α : Type} [DecidableEq α] (l : List (List α)) :
    (l.filter (fun t => decide (t ≠ [])) = []) ↔ l.flatten = [] := by
  simp [List.filter_eq_nil_iff, List.flatten_eq_nil_iff]

/-- The empty-check-and-flatten postlude of `get_segs_by_criteria` computes
exactly `matching_segs`, with the error raised iff that list is empty. -/
theorem get_segs_by_criteria_eq (stim : Stim) (rc : ResolvedCrit)
    (remconsec : Bool) :
    get_segs_by_criteria stim rc remconsec =
      (if matching_segs stim rc remconsec = [] then
        .error "No segments fit these criteria."
      else
        .ok (matching_segs stim rc remconsec)) := by
  unfold get_segs_by_criteria matching_segs
  set M := segsMatrix stim rc remconsec with hM
  have hflat :
      (((M.map (fun temp => temp.filter (fun idxs => decide (idxs ≠ [])))).filter
        (fun temp => decide (temp ≠ []))).flatten).flatten = M.flatten.flatten := by
    rw [filter_ne_nil_flatten]
    clear hM
    induction M with
    | nil => rfl
    | cons t ts ih =>
      simp only [List.map_cons, List.flatten_cons, List.flatten_append, ih]
      rw [filter_ne_nil_flatten]
  have hempty :
      ((M.map (fun temp => temp.filter (fun idxs => decide (idxs ≠ [])))).filter
        (fun temp => decide (temp ≠ [])) = []) ↔ M.flatten.flatten = [] := by
    rw [filter_ne_nil_eq_nil_iff]
    constructor
    · intro h
      rw [List.flatten_eq_nil_iff] at h ⊢
      intro L hL
      rw [List.mem_flatten] at hL
      rcases hL with ⟨t, ht, hLt⟩
      have := h (t.filter (fun idxs => decide (idxs ≠ [])))
        (List.mem_map_of_mem _ ht)
      rw [List.filter_eq_nil_iff] at this
      have := this L hLt
      simpa using this
    · intro h
      rw [List.flatten_eq_nil_iff] at h ⊢
      intro L hL
      rw [List.mem_map] at hL
      rcases hL with ⟨t, ht, rfl⟩
      rw [List.filter_eq_nil_iff]
      intro a ha
      have : a ∈ M.flatten := List.mem_flatten.mpr ⟨t, ht, ha⟩
      simp [h a this]
  by_cases hc : M.flatten.flatten = []
  · rw [if_pos hc, if_pos (hempty.mpr hc)]
  · rw [if_neg hc, if_neg (fun h => hc (hempty.mp h))]
    rw [hflat]

theorem mem_matching_segs {stim : Stim} {rc : ResolvedCrit} {remconsec : Bool}
    {s : ℤ} :
    s ∈ matching_segs stim rc remconsec ↔
      ∃ i ∈ stim.block_ran_seg, ∃ j ∈ i, s ∈ blockIdxs stim rc remconsec j := by
  unfold matching_segs segsMatrix
  simp only [List.mem_flatten, List.mem_map]
  constructor
  · rintro ⟨L, ⟨t, ⟨i, hi, rfl⟩, hLt⟩, hsL⟩
    rcases List.mem_map.mp hLt with ⟨j, hj, rfl⟩
    exact ⟨i, hi, j, hj, hsL⟩
  · rintro ⟨i, hi, j, hj, hs⟩
    refine ⟨blockIdxs stim rc remconsec j, ⟨i.map (blockIdxs stim rc remconsec), ?_, ?_⟩, hs⟩
    · exact ⟨i, hi, rfl⟩
    · exact List.mem_map_of_mem _ hj

/-- A row matching the second (filtered) `quint_segs` query also matches the
first (boundary) query: every criterion of the boundary query is either
identical to the filtered query's criterion or resolves to "all observed
values" of a column, which any dataframe row satisfies. -/
theorem rowMatches_call2_to_call1 {stim : Stim} {sp : StimParRec}
    {surp : ValCrit} {blk : ℤ × ℤ} {r : Row} (hr : r ∈ stim.df)
    (h2 : rowMatches (quintCall2Crit stim sp surp) stim.stimtypeChar blk r
      = true) :
    rowMatches (quintCall1Crit stim sp) stim.stimtypeChar blk r = true := by
  obtain ⟨st, c, df, brs⟩ := stim
  have hp1 : r.stimPar1 ∈ colVals df (fun r => r.stimPar1) :=
    List.mem_map_of_mem _ hr
  have hsurp : r.surp ∈ colVals df (fun r => r.surp) :=
    List.mem_map_of_mem _ hr
  have hgabfr : r.gabfr ∈ colVals df (fun r => r.gabfr) :=
    List.mem_map_of_mem _ hr
  cases st <;>
    · simp only [quintCall1Crit, quintCall2Crit, format_stim_criteria,
        rowMatches, overrideVals, resolveVal, List.append_nil, List.nil_append,
        Bool.and_eq_true, decide_eq_true_eq, beq_iff_eq] at h2 ⊢
      tauto

/-- A segment returned by the filtered `quint_segs` query is also returned by
the boundary query (criteria refinement plus the fact that the `remconsec`
collapse only removes values). -/
theorem matching_segs_call2_subset {stim : Stim} {sp : StimParRec}
    {surp : ValCrit} {remconsec : Bool} {s : ℤ}
    (h : s ∈ matching_segs stim (quintCall2Crit stim sp surp) remconsec) :
    s ∈ matching_segs stim (quintCall1Crit stim sp) false := by
  rw [mem_matching_segs] at h ⊢
  obtain ⟨i, hi, j, hj, hs⟩ := h
  refine ⟨i, hi, j, hj, ?_⟩
  unfold blockIdxs at hs ⊢
  have hs' : s ∈ (stim.df.filter
      (rowMatches (quintCall2Crit stim sp surp) stim.stimtypeChar j)).map
      (fun r => r.stimSeg) := by
    cases remconsec with
    | false => simpa using hs
    | true =>
      simp only [if_pos rfl] at hs
      exact remconsecFilter_subset hs
  simp only [if_neg (by simp : ¬False), Bool.false_eq_true] at *
  rw [List.mem_map] at hs'
  obtain ⟨rr, hrr, rfl⟩ := hs'
  rw [List.mem_filter] at hrr
  simp only [List.mem_map]
  exact ⟨rr, List.mem_filter.mpr
    ⟨hrr.1, rowMatches_call2_to_call1 hrr.1 hrr.2⟩, rfl⟩

/-- Integer form of the quintile membership test (proof vehicle): the float
test `seg_min + q * qu_len <= s < seg_min + (q+1) * qu_len` with
`qu_len = (seg_max - seg_min)/n` is equivalent, for `n > 0`, to
`q * (seg_max - seg_min) <= (s - seg_min) * n < (q+1) * (seg_max - seg_min)`. -/
def quBinInt (seg_min seg_max : ℤ) (n_quints : ℕ) (q : ℕ) (s : ℤ) : Bool :=
  decide ((q : ℤ) * (seg_max - seg_min) ≤ (s - seg_min) * (n_quints : ℤ)) &&
  decide ((s - seg_min) * (n_quints : ℤ) < ((q : ℤ) + 1) * (seg_max - seg_min))

theorem quBin_eq_quBinInt {m M : ℤ} {n q : ℕ} (hn : 0 < n) (s : ℤ) :
    quBin m M n q s = quBinInt m M n q s := by
  simp only [quBin, quBinInt]
  have hn' : (0 : ℚ) < (n : ℚ) := by exact_mod_cast hn
  have h1 : ((q : ℚ) * (((M : ℚ) - (m : ℚ)) / (n : ℚ)) + (m : ℚ) ≤ (s : ℚ)) ↔
      ((q : ℤ) * (M - m) ≤ (s - m) * (n : ℤ)) := by
    rw [← le_sub_iff_add_le, ← mul_div_assoc, div_le_iff₀ hn']
    constructor <;> intro h <;> exact_mod_cast h
  have h2 : ((s : ℚ) < ((q : ℚ) + 1) * (((M : ℚ) - (m : ℚ)) / (n : ℚ)) + (m : ℚ)) ↔
      ((s - m) * (n : ℤ) < ((q : ℤ) + 1) * (M - m)) := by
    rw [← sub_lt_iff_lt_add, ← mul_div_assoc, lt_div_iff₀ hn']
    constructor <;> intro h <;> exact_mod_cast h
  rw [decide_eq_decide.mpr h1, decide_eq_decide.mpr h2]

theorem quBin_fun_eq {m M : ℤ} {n q : ℕ} (hn : 0 < n) :
    quBin m M n q = quBinInt m M n q :=
  funext (fun s => quBin_eq_quBinInt hn s)

/-- `quint_segs` with the integer form of the quintile membership test
(proof vehicle for evaluating concrete scenarios, since exact rational
division does not reduce in the kernel). -/
def quint_segsInt (stim : Stim) (sp : StimParRec) (n_quints : ℕ)
    (qu_idx : Option (List ℕ)) (surp : ValCrit)
    (empty_ok remconsec : Bool) :
    Except String (List (List ℤ) × List ℕ) :=
  let quIdx := match qu_idx with
    | none => List.range n_quints
    | some l => l
  match catchEmpty empty_ok
      (get_segs_by_criteria stim (quintCall1Crit stim sp) false) with
  | .error e => .error e
  | .ok _ =>
    let seg_min := (quint_seg_range stim sp).1
    let seg_max := (quint_seg_range stim sp).2
    match catchEmpty empty_ok
        (get_segs_by_criteria stim (quintCall2Crit stim sp surp) remconsec) with
    | .error e => .error e
    | .ok all_segs =>
      let qu_segs := quIdx.map
        (fun q => all_segs.filter (quBinInt seg_min seg_max n_quints q))
      .ok (qu_segs, qu_segs.map List.length)

theorem quint_segs_eq_int (stim : Stim) (sp : StimParRec) {n_quints : ℕ}
    (hn : 0 < n_quints) (qu_idx : Option (List ℕ)) (surp : ValCrit)
    (empty_ok remconsec : Bool) :
    quint_segs stim sp n_quints qu_idx surp empty_ok remconsec =
      quint_segsInt stim sp n_quints qu_idx surp empty_ok remconsec := by
  unfold quint_segs quint_segsInt
  cases catchEmpty empty_ok
      (get_segs_by_criteria stim (quintCall1Crit stim sp) false) with
  | error e => rfl
  | ok l =>
    cases catchEmpty empty_ok
        (get_segs_by_criteria stim (quintCall2Crit stim sp surp) remconsec) with
    | error e => rfl
    | ok all_segs =>
      simp only [quBin_fun_eq hn]

/-! ### Characterisation of successful quintile splits -/

theorem getD_range_map {α : Type} (f : ℕ → α) {n i : ℕ} (h : i < n) (d : α) :
    (((List.range n).map f).getD i d) = f i := by
  rw [List.getD_eq_getElem?_getD, List.getElem?_map, List.getElem?_range h]
  rfl

/-- A successful `get_segs_by_criteria` call returns exactly the (necessarily
non-empty) list of matching segments. -/
theorem get_segs_ok_eq {stim : Stim} {rc : ResolvedCrit} {remconsec : Bool}
    {S : List ℤ} (h : get_segs_by_criteria stim rc remconsec = .ok S) :
    S = matching_segs stim rc remconsec ∧
      matching_segs stim rc remconsec ≠ [] := by
  rw [get_segs_by_criteria_eq] at h
  by_cases hc : matching_segs stim rc remconsec = []
  · rw [if_pos hc] at h
    cases h
  · rw [if_neg hc] at h
    exact ⟨(Except.ok.injEq _ _ ▸ h).symm, hc⟩

/-- Bounds: every segment returned by the filtered query lies inside the
unfiltered segment range `[seg_min, seg_max)` of the stimulus. -/
theorem quint_seg_range_bounds {stim : Stim} {sp : StimParRec}
    {surp : ValCrit} {remconsec : Bool} {s : ℤ}
    (h : s ∈ matching_segs stim (quintCall2Crit stim sp surp) remconsec) :
    (quint_seg_range stim sp).1 ≤ s ∧ s < (quint_seg_range stim sp).2 := by
  have hU := matching_segs_call2_subset h
  have hne : matching_segs stim (quintCall1Crit stim sp) false ≠ [] :=
    List.ne_nil_of_mem hU
  unfold quint_seg_range
  rw [get_segs_by_criteria_eq, if_neg hne]
  dsimp only
  have h1 := listMin_le_of_mem hU
  have h2 := le_listMax_of_mem hU
  exact ⟨h1, by omega⟩

theorem quBinInt_iff {m M : ℤ} {n q : ℕ} {s : ℤ} :
    quBinInt m M n q s = true ↔
      ((q : ℤ) * (M - m) ≤ (s - m) * (n : ℤ) ∧
        (s - m) * (n : ℤ) < ((q : ℤ) + 1) * (M - m)) := by
  simp [quBinInt]

/-- The shape of a successful `quint_segs` call with `qu_idx = 'all'`: one
filtered bin per quintile index, with the counts being the bin lengths. -/
theorem quint_segs_ok_shape {stim : Stim} {sp : StimParRec} {n_quints : ℕ}
    {surp : ValCrit} {empty_ok remconsec : Bool} {qs : List (List ℤ)}
    {counts : List ℕ} {S : List ℤ}
    (hok : quint_segs stim sp n_quints none surp empty_ok remconsec
      = .ok (qs, counts))
    (hS : get_segs_by_criteria stim (quintCall2Crit stim sp surp) remconsec
      = .ok S) :
    qs = (List.range n_quints).map
        (fun q => S.filter
          (quBin (quint_seg_range stim sp).1 (quint_seg_range stim sp).2
            n_quints q)) ∧
      counts = qs.map List.length := by
  unfold quint_segs at hok
  rw [hS] at hok
  cases h1 : catchEmpty empty_ok
      (get_segs_by_criteria stim (quintCall1Crit stim sp) false) with
  | error e =>
    rw [h1] at hok
    cases hok
  | ok l =>
    rw [h1] at hok
    simp only [catchEmpty] at hok
    rw [Except.ok.injEq, Prod.mk.injEq] at hok
    exact ⟨hok.1.symm, by rw [← hok.1, ← hok.2]⟩

/-- The demo dataframe row for one segment id: all categorical columns 0,
frame columns consistent with a one-frame segment. -/
def mkRow (seg : ℤ) : Row :=
  { stimType := 0, stimPar1 := 0, stimPar2 := 0, surp := 0, stimSeg := seg,
    gabfr := 0, start2pfr := seg, end2pfr := seg + 1, num2pfr := 1 }

/-- Concrete scenario stimulus: segment ids `0..99` uniformly spaced, one
display sequence with one block covering `[0, 100)`. -/
def demoStim : Stim :=
  { stimtype := .gabors, stimtypeChar := 0,
    df := (List.range 100).map (fun i => mkRow i),
    block_ran_seg := [[(0, 100)]] }

/-- Concrete scenario stimulus parameters: everything left at `'any'`/`None`. -/
def demoSP : StimParRec :=
  { gabfr := none, gabk := none, gab_ori := none, bri_size := none,
    bri_dir := none }

/-- The segments of the concrete scenario. -/
def demoSegs : List ℤ :=
  (List.range 100).map Int.ofNat

/-- The expected quintile split of the concrete scenario. -/
def demoQS : List (List ℤ) :=
  [(List.range 25).map Int.ofNat,
   (List.range 25).map (fun k => Int.ofNat (k + 25)),
   (List.range 25).map (fun k => Int.ofNat (k + 50)),
   (List.range 25).map (fun k => Int.ofNat (k + 75))]

/-- The float quintile bin width of `quint_segs`:
`(seg_max - seg_min) / n_quints` over the unfiltered segment range. Note it
does not depend on the surprise filter. -/
def bin_width (stim : Stim) (sp : StimParRec) (n_quints : ℕ) : ℚ :=
  (((quint_seg_range stim sp).2 : ℚ) - ((quint_seg_range stim sp).1 : ℚ)) /
    (n_quints : ℚ)

/-- C1: quintile boundaries are computed over the unfiltered segment set
(`quint_seg_range`/`bin_width` take no surprise argument, so they are
identical across surprise filters); a filtered segment `s` lands in bin `q`
iff `seg_min + q * bin_width ≤ s < seg_min + (q+1) * bin_width` with
`bin_width = (seg_max - seg_min) / n_quints` as an exact fraction; and in
the concrete scenario of segment ids `0..99` with `n_quints = 4`, quintile 0
holds exactly ids `[0, 25)`, quintile 3 exactly ids `[75, 100)`, and every
quintile has count 25. -/
theorem quint_segs_boundaries_stable :
    (∀ (stim : Stim) (sp : StimParRec) (n_quints : ℕ), 0 < n_quints →
      ∀ (surp : ValCrit) (empty_ok remconsec : Bool)
        (qs : List (List ℤ)) (counts : List ℕ) (S : List ℤ),
        quint_segs stim sp n_quints none surp empty_ok remconsec
          = .ok (qs, counts) →
        get_segs_by_criteria stim (quintCall2Crit stim sp surp) remconsec
          = .ok S →
        ∀ q, q < n_quints → ∀ s : ℤ,
          (s ∈ qs.getD q [] ↔ s ∈ S ∧
            ((quint_seg_range stim sp).1 : ℚ) +
              (q : ℚ) * bin_width stim sp n_quints ≤ (s : ℚ) ∧
            (s : ℚ) < ((quint_seg_range stim sp).1 : ℚ) +
              ((q : ℚ) + 1) * bin_width stim sp n_quints)) ∧
    quint_segs demoStim demoSP 4 none none false false
      = .ok (demoQS, [25, 25, 25, 25]) := by
  constructor
  · intro stim sp n_quints hn surp empty_ok remconsec qs counts S hok hS q hq s
    obtain ⟨hqs, -⟩ := quint_segs_ok_shape hok hS
    rw [hqs, getD_range_map _ hq, List.mem_filter]
    simp only [quBin, Bool.and_eq_true, decide_eq_true_eq, bin_width]
    constructor
    · rintro ⟨hs, h1, h2⟩
      refine ⟨hs, by linarith, by linarith⟩
    · rintro ⟨hs, h1, h2⟩
      refine ⟨hs, by linarith, by linarith⟩
  · rw [quint_segs_eq_int demoStim demoSP (by norm_num) none none false false]
    decide

/-- Closed witness for `quint_segs_boundaries_stable`: the general membership
characterisation applied to segment 30 of bin 1 of the concrete scenario. -/
theorem quint_segs_boundaries_stable_witness :
    (30 : ℤ) ∈ demoQS.getD 1 [] ↔ (30 : ℤ) ∈ demoSegs ∧
      ((quint_seg_range demoStim demoSP).1 : ℚ) +
        (1 : ℕ) * bin_width demoStim demoSP 4 ≤ ((30 : ℤ) : ℚ) ∧
      (((30 : ℤ) : ℚ)) < ((quint_seg_range demoStim demoSP).1 : ℚ) +
        (((1 : ℕ) : ℚ) + 1) * bin_width demoStim demoSP 4 :=
  quint_segs_boundaries_stable.1 demoStim demoSP 4 (by norm_num) none false
    false demoQS [25, 25, 25, 25] demoSegs
    quint_segs_boundaries_stable.2
    (by decide) 1 (by norm_num) 30

/-- C2: for a non-empty criteria-filtered segment set `S` and 4 quintiles
(all retained), the 4 quintile lists are pairwise disjoint and their union
is exactly `S`. -/
theorem quint_segs_partition (stim : Stim) (sp : StimParRec) (surp : ValCrit)
    (empty_ok remconsec : Bool) (qs : List (List ℤ)) (counts : List ℕ)
    (S : List ℤ)
    (hok : quint_segs stim sp 4 none surp empty_ok remconsec = .ok (qs, counts))
    (hS : get_segs_by_criteria stim (quintCall2Crit stim sp surp) remconsec
      = .ok S)
    (_hne : S ≠ []) :
    qs.length = 4 ∧
    (∀ i j : ℕ, i < 4 → j < 4 → i ≠ j →
      ∀ s : ℤ, s ∈ qs.getD i [] → s ∉ qs.getD j []) ∧
    (∀ s : ℤ, s ∈ S ↔ ∃ i : ℕ, i < 4 ∧ s ∈ qs.getD i []) := by
  obtain ⟨hqs, -⟩ := quint_segs_ok_shape hok hS
  obtain ⟨hSm, -⟩ := get_segs_ok_eq hS
  have hlen : qs.length = 4 := by rw [hqs]; simp
  refine ⟨hlen, ?_, ?_⟩
  · intro i j hi hj hij s hsi hsj
    rw [hqs, getD_range_map _ hi, List.mem_filter,
      quBin_eq_quBinInt (by norm_num : 0 < 4), quBinInt_iff] at hsi
    rw [hqs, getD_range_map _ hj, List.mem_filter,
      quBin_eq_quBinInt (by norm_num : 0 < 4), quBinInt_iff] at hsj
    obtain ⟨-, hi1, hi2⟩ := hsi
    obtain ⟨-, hj1, hj2⟩ := hsj
    apply hij
    interval_cases i <;> interval_cases j <;> push_cast at hi1 hi2 hj1 hj2 <;>
      omega
  · intro s
    constructor
    · intro hs
      have hbounds : (quint_seg_range stim sp).1 ≤ s ∧
          s < (quint_seg_range stim sp).2 :=
        quint_seg_range_bounds (hSm ▸ hs)
      set m := (quint_seg_range stim sp).1 with hm
      set M := (quint_seg_range stim sp).2 with hM
      have hcase : ((0 : ℤ) * (M - m) ≤ (s - m) * 4 ∧
            (s - m) * 4 < (0 + 1) * (M - m)) ∨
          ((1 : ℤ) * (M - m) ≤ (s - m) * 4 ∧
            (s - m) * 4 < (1 + 1) * (M - m)) ∨
          ((2 : ℤ) * (M - m) ≤ (s - m) * 4 ∧
            (s - m) * 4 < (2 + 1) * (M - m)) ∨
          ((3 : ℤ) * (M - m) ≤ (s - m) * 4 ∧
            (s - m) * 4 < (3 + 1) * (M - m)) := by omega
      have hmem : ∀ q : ℕ, q < 4 →
          ((q : ℤ) * (M - m) ≤ (s - m) * 4 ∧
            (s - m) * 4 < ((q : ℤ) + 1) * (M - m)) →
          s ∈ qs.getD q [] := by
        intro q hq hcond
        rw [hqs, getD_range_map _ hq, List.mem_filter,
          quBin_eq_quBinInt (by norm_num : 0 < 4), quBinInt_iff]
        exact ⟨hs, hcond⟩
      rcases hcase with h | h | h | h
      · exact ⟨0, by norm_num, hmem 0 (by norm_num) (by push_cast; omega)⟩
      · exact ⟨1, by norm_num, hmem 1 (by norm_num) (by push_cast; omega)⟩
      · exact ⟨2, by norm_num, hmem 2 (by norm_num) (by push_cast; omega)⟩
      · exact ⟨3, by norm_num, hmem 3 (by norm_num) (by push_cast; omega)⟩
    · rintro ⟨i, hi, hsi⟩
      rw [hqs, getD_range_map _ hi, List.mem_filter] at hsi
      exact hsi.1

/-- Closed witness for `quint_segs_partition`: the partition property at the
concrete scenario (segment ids `0..99`, 4 quintiles). -/
theorem quint_segs_partition_witness :
    demoQS.length = 4 ∧
    (∀ i j : ℕ, i < 4 → j < 4 → i ≠ j →
      ∀ s : ℤ, s ∈ demoQS.getD i [] → s ∉ demoQS.getD j []) ∧
    (∀ s : ℤ, s ∈ demoSegs ↔ ∃ i : ℕ, i < 4 ∧ s ∈ demoQS.getD i []) :=
  quint_segs_partition demoStim demoSP none false false demoQS
    [25, 25, 25, 25] demoSegs
    (by rw [quint_segs_eq_int demoStim demoSP (by norm_num) none none false
        false]; decide)
    (by decide) (by decide)

/-! ### Empty-result behaviour -/

/-- When the filtered criteria match no segments and `empty_ok` is set,
`quint_segs` returns one empty bin and a zero count per quintile. -/
theorem quint_segs_empty_shape {stim : Stim} {sp : StimParRec} {n : ℕ}
    {surp : ValCrit} {remconsec : Bool}
    (h2 : matching_segs stim (quintCall2Crit stim sp surp) remconsec = []) :
    quint_segs stim sp n none surp true remconsec =
      .ok (List.replicate n [], List.replicate n 0) := by
  have hc2 : get_segs_by_criteria stim (quintCall2Crit stim sp surp) remconsec
      = .error "No segments fit these criteria." := by
    rw [get_segs_by_criteria_eq, if_pos h2]
  unfold quint_segs
  rw [hc2]
  cases h1 : get_segs_by_criteria stim (quintCall1Crit stim sp) false <;>
    simp [catchEmpty, List.map_const', List.length_range]

/-- When the filtered criteria match no segments and `empty_ok` is not set,
`quint_segs` propagates the `ValueError`. -/
theorem quint_segs_empty_raises {stim : Stim} {sp : StimParRec} {n : ℕ}
    {surp : ValCrit} {remconsec : Bool}
    (h2 : matching_segs stim (quintCall2Crit stim sp surp) remconsec = []) :
    ∃ e, quint_segs stim sp n none surp false remconsec = .error e := by
  have hc2 : get_segs_by_criteria stim (quintCall2Crit stim sp surp) remconsec
      = .error "No segments fit these criteria." := by
    rw [get_segs_by_criteria_eq, if_pos h2]
  unfold quint_segs
  rw [hc2]
  cases h1 : get_segs_by_criteria stim (quintCall1Crit stim sp) false with
  | error e => exact ⟨e, by simp [catchEmpty]⟩
  | ok l => exact ⟨"No segments fit these criteria.", by simp [catchEmpty]⟩

/-- C8: a segment query whose criteria match zero segments raises
(`get_segs_by_criteria` errors iff no segment matches, and `quint_segs`
propagates the error by default), while the explicit `empty_ok` relaxation
turns the same query into an empty segment list and zero count per retained
quintile, with no error propagating. -/
theorem get_segs_empty_ok_behaviour :
    (∀ (stim : Stim) (rc : ResolvedCrit) (remconsec : Bool),
      (∃ e, get_segs_by_criteria stim rc remconsec = .error e) ↔
        matching_segs stim rc remconsec = []) ∧
    (∀ (stim : Stim) (sp : StimParRec) (n : ℕ) (surp : ValCrit)
      (remconsec : Bool),
      matching_segs stim (quintCall2Crit stim sp surp) remconsec = [] →
      (∃ e, quint_segs stim sp n none surp false remconsec = .error e) ∧
      quint_segs stim sp n none surp true remconsec =
        .ok (List.replicate n [], List.replicate n 0)) := by
  constructor
  · intro stim rc remconsec
    rw [get_segs_by_criteria_eq]
    by_cases hc : matching_segs stim rc remconsec = []
    · simp [hc]
    · simp [hc]
  · intro stim sp n surp remconsec h2
    exact ⟨quint_segs_empty_raises h2, quint_segs_empty_shape h2⟩

/-- Closed witness for `get_segs_empty_ok_behaviour`: querying the concrete
scenario stimulus for surprise value 5 (present in no row) errors by
default, and returns 4 empty bins with zero counts under `empty_ok`. -/
theorem get_segs_empty_ok_behaviour_witness :
    ((∃ e, get_segs_by_criteria demoStim
        (quintCall2Crit demoStim demoSP (some [5])) false = .error e) ↔
      matching_segs demoStim (quintCall2Crit demoStim demoSP (some [5])) false
        = []) ∧
    (∃ e, quint_segs demoStim demoSP 4 none (some [5]) false false
      = .error e) ∧
    quint_segs demoStim demoSP 4 none (some [5]) true false =
      .ok (List.replicate 4 [], List.replicate 4 0) :=
  ⟨get_segs_empty_ok_behaviour.1 demoStim
      (quintCall2Crit demoStim demoSP (some [5])) false,
    get_segs_empty_ok_behaviour.2 demoStim demoSP 4 (some [5]) false
      (by decide)⟩

/-- C10: a successful `quint_segs` call with `qu_idx = 'all'` returns exactly
`n_quints` bins and `n_quints` counts, the counts being the bin lengths;
and when no segment matches the filtered criteria under `empty_ok`, every
bin is empty and every count is zero. -/
theorem quint_segs_entry_counts :
    (∀ (stim : Stim) (sp : StimParRec) (n_quints : ℕ) (surp : ValCrit)
      (empty_ok remconsec : Bool) (qs : List (List ℤ)) (counts : List ℕ),
      quint_segs stim sp n_quints none surp empty_ok remconsec
        = .ok (qs, counts) →
      qs.length = n_quints ∧ counts.length = n_quints ∧
        counts = qs.map List.length) ∧
    (∀ (stim : Stim) (sp : StimParRec) (n_quints : ℕ) (surp : ValCrit)
      (remconsec : Bool),
      matching_segs stim (quintCall2Crit stim sp surp) remconsec = [] →
      quint_segs stim sp n_quints none surp true remconsec =
        .ok (List.replicate n_quints [], List.replicate n_quints 0)) := by
  constructor
  · intro stim sp n_quints surp empty_ok remconsec qs counts hok
    unfold quint_segs at hok
    cases h1 : catchEmpty empty_ok
        (get_segs_by_criteria stim (quintCall1Crit stim sp) false) with
    | error e =>
      rw [h1] at hok
      cases hok
    | ok l =>
      rw [h1] at hok
      cases h2 : catchEmpty empty_ok
          (get_segs_by_criteria stim (quintCall2Crit stim sp surp)
            remconsec) with
      | error e =>
        rw [h2] at hok
        cases hok
      | ok all_segs =>
        rw [h2] at hok
        rw [Except.ok.injEq, Prod.mk.injEq] at hok
        obtain ⟨hq, hc⟩ := hok
        subst hq
        subst hc
        refine ⟨by simp, by simp, by simp⟩
  · intro stim sp n_quints surp remconsec h2
    exact quint_segs_empty_shape h2

/-- Closed witness for `quint_segs_entry_counts`: bin and count lists of the
concrete scenario have 4 entries each, and an unmatched surprise criterion
under `empty_ok` yields 4 empty bins and 4 zero counts. -/
theorem quint_segs_entry_counts_witness :
    (demoQS.length = 4 ∧ ([25, 25, 25, 25] : List ℕ).length = 4 ∧
      ([25, 25, 25, 25] : List ℕ) = demoQS.map List.length) ∧
    quint_segs demoStim demoSP 4 none (some [5]) true false =
      .ok (List.replicate 4 [], List.replicate 4 0) :=
  ⟨quint_segs_entry_counts.1 demoStim demoSP 4 none false false demoQS
      [25, 25, 25, 25]
      (by rw [quint_segs_eq_int demoStim demoSP (by norm_num) none none false
          false]; decide),
    quint_segs_entry_counts.2 demoStim demoSP 4 (some [5]) false (by decide)⟩

/-! ### Multiple-comparison correction -/

/-- Modelled from the spec: `math_util.calc_mult_comp(n_comps, p_val,
n_perms)` is not under `src/` (only its caller is); per the specification,
the effective p-value of `n_comps` simultaneous comparisons is
`p_val / n_comps`, and the permutation count is scaled up so the smallest
representable p-value stays below the corrected threshold:
`n_perms_effective = max(n_perms, ceil(1 / effective_p_value))`. -/
def calc_mult_comp (n_comps : ℕ) (p_val : ℚ) (n_perms : ℕ) : ℚ × ℕ :=
  (p_val / (n_comps : ℚ),
    max n_perms (Nat.ceil ((1 : ℚ) / (p_val / (n_comps : ℚ)))))

/-- The multiple-comparison setup of `signif_rois_by_grp_sess`
(signif_grps.py): requires exactly two quintile labels, then corrects for
`nrois * len(qu_labs)` simultaneous comparisons via `calc_mult_comp`. -/
def signif_mult_comp (nrois n_qu_labs : ℕ) (p_val : ℚ) (n_perms : ℕ) :
    Except String (ℚ × ℕ) :=
  if n_qu_labs ≠ 2 then
    .error "Identifying significant ROIs is only implemented for 2 quintiles."
  else
    .ok (calc_mult_comp (nrois * n_qu_labs) p_val n_perms)

/-- C3: across two quintiles, the permutation test is corrected to an
effective p-value of `p_value / (nrois * 2)` with
`n_perms_effective = max(n_perms, ceil(1/effective_p))`, so that the
smallest representable p-value `1 / n_perms_effective` stays below the
corrected threshold; and for 10 comparisons at `p_value = 0.05` the
corrected p-value is `1/200 = 0.005` and `n_perms_effective ≥ 200`. -/
theorem signif_mult_comp_correction :
    (∀ (nrois : ℕ) (p_val : ℚ) (n_perms : ℕ) (res : ℚ × ℕ),
      0 < nrois → 0 < p_val →
      signif_mult_comp nrois 2 p_val n_perms = .ok res →
      res.1 = p_val / ((nrois : ℚ) * 2) ∧
      res.2 = max n_perms (Nat.ceil ((1 : ℚ) / res.1)) ∧
      n_perms ≤ res.2 ∧
      (1 : ℚ) / (res.2 : ℚ) ≤ res.1) ∧
    signif_mult_comp 5 2 (1 / 20) 100 = .ok (1 / 200, 200) ∧
    (200 : ℕ) = Nat.ceil ((1 : ℚ) / (1 / 200)) := by
  refine ⟨?_, ?_, ?_⟩
  · intro nrois p_val n_perms res hn hp hok
    simp only [signif_mult_comp, if_neg (by norm_num : ¬(2 : ℕ) ≠ 2),
      Except.ok.injEq] at hok
    subst hok
    have hcast : ((nrois * 2 : ℕ) : ℚ) = (nrois : ℚ) * 2 := by push_cast; ring
    have hq : (0 : ℚ) < (nrois : ℚ) * 2 := by positivity
    have hp1 : (0 : ℚ) < p_val / ((nrois : ℚ) * 2) := by positivity
    refine ⟨by simp [calc_mult_comp, hcast], by simp [calc_mult_comp, hcast],
      le_max_left _ _, ?_⟩
    simp only [calc_mult_comp, hcast]
    have hceil : (1 : ℚ) / (p_val / ((nrois : ℚ) * 2)) ≤
        ((Nat.ceil ((1 : ℚ) / (p_val / ((nrois : ℚ) * 2))) : ℕ) : ℚ) :=
      Nat.le_ceil _
    have hle : (1 : ℚ) / (p_val / ((nrois : ℚ) * 2)) ≤
        ((max n_perms (Nat.ceil ((1 : ℚ) / (p_val / ((nrois : ℚ) * 2)))) : ℕ)
          : ℚ) := by
      refine le_trans hceil ?_
      exact_mod_cast Nat.cast_le.mpr (le_max_right _ _)
    have hpos2 : (0 : ℚ) <
        ((max n_perms (Nat.ceil ((1 : ℚ) / (p_val / ((nrois : ℚ) * 2)))) : ℕ)
          : ℚ) := by
      have h1 : (0 : ℚ) < (1 : ℚ) / (p_val / ((nrois : ℚ) * 2)) := by
        positivity
      linarith
    rw [div_le_iff₀ hpos2]
    rw [div_le_iff₀ hp1] at hle
    linarith
  · norm_num [signif_mult_comp, calc_mult_comp]
  · rw [show ((1 : ℚ) / (1 / 200)) = 200 by norm_num]
    norm_num

/-- Closed witness for `signif_mult_comp_correction`: the general correction
applied at 5 ROIs x 2 quintiles (10 comparisons), base p-value `1/20` and
100 permutations. -/
theorem signif_mult_comp_correction_witness :
    ((1 / 200 : ℚ), (200 : ℕ)).1 = (1 / 20 : ℚ) / ((5 : ℕ) * 2) ∧
    ((1 / 200 : ℚ), (200 : ℕ)).2 =
      max 100 (Nat.ceil ((1 : ℚ) / ((1 / 200 : ℚ), (200 : ℕ)).1)) ∧
    100 ≤ ((1 / 200 : ℚ), (200 : ℕ)).2 ∧
    (1 : ℚ) / (((1 / 200 : ℚ), (200 : ℕ)).2 : ℚ) ≤
      ((1 / 200 : ℚ), (200 : ℕ)).1 :=
  signif_mult_comp_correction.1 5 (1 / 20) 100 (1 / 200, 200) (by norm_num)
    (by norm_num) signif_mult_comp_correction.2.1

/-! ### ROI grouping by significance pattern (`sep_grps`) -/

/-- The elementary ROI groups built by `signif_grps.sep_grps` for one-tailed
analyses (`tails in ['up','lo']`): `sign_rois[0]`/`sign_rois[1]` are the
significant-ROI sets of the first/last quintile (Python converts the input
lists to sets, whose iteration order is arbitrary, hence `Finset`):
`[surp_surp, surp_reg, reg_surp, reg_reg]`. -/
def sep_grps_elem_1tail (first last : Finset ℕ) (nrois : ℕ) :
    List (Finset ℕ) :=
  let all_rois := Finset.range nrois
  let surp_surp := first ∩ last
  let surp_reg := first \ last
  let reg_surp := last \ first
  let reg_reg := ((all_rois \ surp_surp) \ surp_reg) \ reg_surp
  [surp_surp, surp_reg, reg_surp, reg_reg]

/-- The elementary ROI groups built by `signif_grps.sep_grps` for two-tailed
analyses (`tails = 2`): `sign_rois[first/last][lo/up]` are the per-quintile,
per-tail significant-ROI sets:
`[surp_up_surp_up, surp_up_surp_lo, surp_lo_surp_up, surp_lo_surp_lo,
surp_up_reg, surp_lo_reg, reg_surp_up, reg_surp_lo, reg_reg]`. -/
def sep_grps_elem_2tails (f_lo f_up l_lo l_up : Finset ℕ) (nrois : ℕ) :
    List (Finset ℕ) :=
  let all_rois := Finset.range nrois
  let surp_up_surp_up := f_up ∩ l_up
  let surp_up_surp_lo := f_up ∩ l_lo
  let surp_lo_surp_up := f_lo ∩ l_up
  let surp_lo_surp_lo := f_lo ∩ l_lo
  let surp_up_reg := (f_up \ l_up) \ l_lo
  let surp_lo_reg := (f_lo \ l_up) \ l_lo
  let reg_surp_up := (l_up \ f_up) \ f_lo
  let reg_surp_lo := (l_lo \ f_up) \ f_lo
  let reg_reg := (((all_rois \ f_up) \ l_up) \ f_lo) \ l_lo
  [surp_up_surp_up, surp_up_surp_lo, surp_lo_surp_up, surp_lo_surp_lo,
   surp_up_reg, surp_lo_reg, reg_surp_up, reg_surp_lo, reg_reg]

/-- Counterexample to C4 as stated: for an arbitrary assignment of per-tail
significant-ROI lists the elementary groups need not partition the ROIs.
With one ROI flagged in both tails of the first quintile and nothing in the
last quintile, ROI 0 appears in both `surp_up_reg` (index 4) and
`surp_lo_reg` (index 5), and the group sizes sum to 2 over 1 ROI. -/
theorem sep_grps_partition_counterexample :
    ((sep_grps_elem_2tails {0} {0} ∅ ∅ 1).map Finset.card).sum = 2 ∧
    (0 : ℕ) ∈ (sep_grps_elem_2tails {0} {0} ∅ ∅ 1).getD 4 ∅ ∧
    (0 : ℕ) ∈ (sep_grps_elem_2tails {0} {0} ∅ ∅ 1).getD 5 ∅ ∧
    (2 : ℕ) ≠ 1 := by
  refine ⟨by decide, by decide, by decide, by decide⟩

/-- The group index (0..8) of one ROI in the two-tailed elementary groups,
by its per-quintile tail status (proof vehicle). -/
def classify2 (f_lo f_up l_lo l_up : Finset ℕ) (r : ℕ) : ℕ :=
  if r ∈ f_up then
    (if r ∈ l_up then 0 else if r ∈ l_lo then 1 else 4)
  else if r ∈ f_lo then
    (if r ∈ l_up then 2 else if r ∈ l_lo then 3 else 5)
  else
    (if r ∈ l_up then 6 else if r ∈ l_lo then 7 else 8)

/-- The group index (0..3) of one ROI in the one-tailed elementary groups
(proof vehicle). -/
def classify1 (first last : Finset ℕ) (r : ℕ) : ℕ :=
  if r ∈ first then (if r ∈ last then 0 else 1)
  else (if r ∈ last then 2 else 3)

theorem classify2_lt (f_lo f_up l_lo l_up : Finset ℕ) (r : ℕ) :
    classify2 f_lo f_up l_lo l_up r < 9 := by
  unfold classify2
  split_ifs <;> omega

theorem classify1_lt (first last : Finset ℕ) (r : ℕ) :
    classify1 first last r < 4 := by
  unfold classify1
  split_ifs <;> omega

/-- Each one-tailed elementary group is the fiber of `classify1` over the
ROI range. -/
theorem sep_grps_1tail_fiber {first last : Finset ℕ} {nrois : ℕ}
    (hf : ∀ r ∈ first, r < nrois) (hl : ∀ r ∈ last, r < nrois) :
    ∀ k, k < 4 →
      (sep_grps_elem_1tail first last nrois).getD k ∅ =
        (Finset.range nrois).filter
          (fun r => classify1 first last r = k) := by
  intro k hk
  interval_cases k <;>
    · ext r
      by_cases h1 : r ∈ first <;> by_cases h2 : r ∈ last <;>
        simp [sep_grps_elem_1tail, classify1, h1, h2, Finset.mem_filter,
          Finset.mem_range] <;>
        first
          | (intro h; exact absurd h (by omega))
          | exact hf r h1
          | exact hl r h2
          | tauto

/-- Each two-tailed elementary group is the fiber of `classify2` over the
ROI range, provided no ROI is flagged in both tails of one quintile. -/
theorem sep_grps_2tails_fiber {f_lo f_up l_lo l_up : Finset ℕ} {nrois : ℕ}
    (hdf : ∀ r ∈ f_lo, r ∉ f_up) (hdl : ∀ r ∈ l_lo, r ∉ l_up)
    (hf1 : ∀ r ∈ f_lo, r < nrois) (hf2 : ∀ r ∈ f_up, r < nrois)
    (hl1 : ∀ r ∈ l_lo, r < nrois) (hl2 : ∀ r ∈ l_up, r < nrois) :
    ∀ k, k < 9 →
      (sep_grps_elem_2tails f_lo f_up l_lo l_up nrois).getD k ∅ =
        (Finset.range nrois).filter
          (fun r => classify2 f_lo f_up l_lo l_up r = k) := by
  intro k hk
  interval_cases k <;>
    · ext r
      by_cases h1 : r ∈ f_up <;> by_cases h2 : r ∈ f_lo <;>
        by_cases h3 : r ∈ l_up <;> by_cases h4 : r ∈ l_lo <;>
        simp [sep_grps_elem_2tails, classify2, h1, h2, h3, h4,
          Finset.mem_filter, Finset.mem_range] <;>
        first
          | (intro h; exact absurd h (by omega))
          | exact hf2 r h1
          | exact hf1 r h2
          | exact hl2 r h3
          | exact hl1 r h4
          | exact absurd h1 (hdf r h2)
          | exact absurd h3 (hdl r h4)
          | tauto

theorem list_card_sum_eq (L : List (Finset ℕ)) :
    (L.map Finset.card).sum =
      ∑ k ∈ Finset.range L.length, (L.getD k ∅).card := by
  induction L with
  | nil => simp
  | cons a l ih =>
    rw [List.map_cons, List.sum_cons, List.length_cons,
      Finset.sum_range_succ']
    simp only [List.getD_cons_succ, List.getD_cons_zero]
    rw [← ih]
    omega

/-- A list of finsets that are exactly the fibers of a classification over
`range nrois` partitions the ROIs: sizes sum to `nrois`, the groups are
mutually exclusive and every ROI lies in one group. -/
theorem fiber_list_partition {L : List (Finset ℕ)} {c : ℕ → ℕ} {nrois : ℕ}
    (hfib : ∀ k, k < L.length →
      L.getD k ∅ = (Finset.range nrois).filter (fun r => c r = k))
    (hlt : ∀ r, c r < L.length) :
    (L.map Finset.card).sum = nrois ∧
    (∀ i j : ℕ, i < L.length → j < L.length → i ≠ j → ∀ r : ℕ,
      r ∈ L.getD i ∅ → r ∉ L.getD j ∅) ∧
    (∀ r : ℕ, r < nrois → ∃ i : ℕ, i < L.length ∧ r ∈ L.getD i ∅) := by
  refine ⟨?_, ?_, ?_⟩
  · rw [list_card_sum_eq]
    have hsum : ∀ k ∈ Finset.range L.length,
        (L.getD k ∅).card =
          ((Finset.range nrois).filter (fun r => c r = k)).card := by
      intro k hk
      rw [hfib k (Finset.mem_range.mp hk)]
    rw [Finset.sum_congr rfl hsum]
    have H : ∀ x ∈ Finset.range nrois, c x ∈ Finset.range L.length :=
      fun x _ => Finset.mem_range.mpr (hlt x)
    have := (Finset.card_eq_sum_card_fiberwise H).symm
    rw [this, Finset.card_range]
  · intro i j hi hj hij r hri hrj
    rw [hfib i hi, Finset.mem_filter] at hri
    rw [hfib j hj, Finset.mem_filter] at hrj
    omega
  · intro r hr
    refine ⟨c r, hlt r, ?_⟩
    rw [hfib (c r) (hlt r), Finset.mem_filter]
    exact ⟨Finset.mem_range.mpr hr, rfl⟩

/-- C4 (amended): provided the per-quintile tail sets are disjoint (no ROI
is significant in both the lower and the upper tail of one quintile, as the
permutation test produces) and contain only indices below `nrois`, the
elementary ROI groups of `sep_grps` are mutually exclusive and exhaustive:
their sizes sum to `nrois` and no ROI lies in two groups — in the one-tailed
case this holds for arbitrary significant-ROI sets. -/
theorem sep_grps_elementary_partition :
    (∀ (first last : Finset ℕ) (nrois : ℕ),
      (∀ r ∈ first, r < nrois) → (∀ r ∈ last, r < nrois) →
      ((sep_grps_elem_1tail first last nrois).map Finset.card).sum = nrois ∧
      (∀ i j : ℕ, i < 4 → j < 4 → i ≠ j → ∀ r : ℕ,
        r ∈ (sep_grps_elem_1tail first last nrois).getD i ∅ →
        r ∉ (sep_grps_elem_1tail first last nrois).getD j ∅) ∧
      (∀ r : ℕ, r < nrois → ∃ i : ℕ, i < 4 ∧
        r ∈ (sep_grps_elem_1tail first last nrois).getD i ∅)) ∧
    (∀ (f_lo f_up l_lo l_up : Finset ℕ) (nrois : ℕ),
      (∀ r ∈ f_lo, r ∉ f_up) → (∀ r ∈ l_lo, r ∉ l_up) →
      (∀ r ∈ f_lo, r < nrois) → (∀ r ∈ f_up, r < nrois) →
      (∀ r ∈ l_lo, r < nrois) → (∀ r ∈ l_up, r < nrois) →
      ((sep_grps_elem_2tails f_lo f_up l_lo l_up nrois).map
        Finset.card).sum = nrois ∧
      (∀ i j : ℕ, i < 9 → j < 9 → i ≠ j → ∀ r : ℕ,
        r ∈ (sep_grps_elem_2tails f_lo f_up l_lo l_up nrois).getD i ∅ →
        r ∉ (sep_grps_elem_2tails f_lo f_up l_lo l_up nrois).getD j ∅) ∧
      (∀ r : ℕ, r < nrois → ∃ i : ℕ, i < 9 ∧
        r ∈ (sep_grps_elem_2tails f_lo f_up l_lo l_up nrois).getD i ∅)) := by
  constructor
  · intro first last nrois hf hl
    have hlen : (sep_grps_elem_1tail first last nrois).length = 4 := rfl
    have hfib : ∀ k, k < (sep_grps_elem_1tail first last nrois).length →
        (sep_grps_elem_1tail first last nrois).getD k ∅ =
          (Finset.range nrois).filter
            (fun r => classify1 first last r = k) := by
      rw [hlen]
      exact sep_grps_1tail_fiber hf hl
    have hlt : ∀ r, classify1 first last r <
        (sep_grps_elem_1tail first last nrois).length := by
      rw [hlen]
      exact classify1_lt first last
    have h := fiber_list_partition hfib hlt
    rw [hlen] at h
    exact h
  · intro f_lo f_up l_lo l_up nrois hdf hdl hf1 hf2 hl1 hl2
    have hlen : (sep_grps_elem_2tails f_lo f_up l_lo l_up nrois).length = 9 :=
      rfl
    have hfib : ∀ k,
        k < (sep_grps_elem_2tails f_lo f_up l_lo l_up nrois).length →
        (sep_grps_elem_2tails f_lo f_up l_lo l_up nrois).getD k ∅ =
          (Finset.range nrois).filter
            (fun r => classify2 f_lo f_up l_lo l_up r = k) := by
      rw [hlen]
      exact sep_grps_2tails_fiber hdf hdl hf1 hf2 hl1 hl2
    have hlt : ∀ r, classify2 f_lo f_up l_lo l_up r <
        (sep_grps_elem_2tails f_lo f_up l_lo l_up nrois).length := by
      rw [hlen]
      exact classify2_lt f_lo f_up l_lo l_up
    have h := fiber_list_partition hfib hlt
    rw [hlen] at h
    exact h

/-- Closed witness for `sep_grps_elementary_partition`: the one-tailed case
at `first = {0}`, `last = {1}` with 2 ROIs, and the two-tailed case at
`f_up = {0}`, `l_up = {0, 1}` (other tails empty) with 2 ROIs. -/
theorem sep_grps_elementary_partition_witness :
    (((sep_grps_elem_1tail {0} {1} 2).map Finset.card).sum = 2 ∧
      (∀ i j : ℕ, i < 4 → j < 4 → i ≠ j → ∀ r : ℕ,
        r ∈ (sep_grps_elem_1tail {0} {1} 2).getD i ∅ →
        r ∉ (sep_grps_elem_1tail {0} {1} 2).getD j ∅) ∧
      (∀ r : ℕ, r < 2 → ∃ i : ℕ, i < 4 ∧
        r ∈ (sep_grps_elem_1tail {0} {1} 2).getD i ∅)) ∧
    (((sep_grps_elem_2tails ∅ {0} ∅ {0, 1} 2).map Finset.card).sum = 2 ∧
      (∀ i j : ℕ, i < 9 → j < 9 → i ≠ j → ∀ r : ℕ,
        r ∈ (sep_grps_elem_2tails ∅ {0} ∅ {0, 1} 2).getD i ∅ →
        r ∉ (sep_grps_elem_2tails ∅ {0} ∅ {0, 1} 2).getD j ∅) ∧
      (∀ r : ℕ, r < 2 → ∃ i : ℕ, i < 9 ∧
        r ∈ (sep_grps_elem_2tails ∅ {0} ∅ {0, 1} 2).getD i ∅)) :=
  ⟨sep_grps_elementary_partition.1 {0} {1} 2 (by decide) (by decide),
   sep_grps_elementary_partition.2 ∅ {0} ∅ {0, 1} 2 (by decide) (by decide)
     (by decide) (by decide) (by decide) (by decide)⟩

/-! ### 2p-to-stimulus frame alignment (`Session._get_twop2stimfr`) -/

/-- `np.diff`: consecutive differences. -/
def npDiff (l : List ℤ) : List ℤ :=
  (l.zip l.tail).map (fun p => p.2 - p.1)

/-- `np.append(1, np.diff(stim2twopfr))`. -/
def twop2stimfr_diff (stim2twopfr : List ℤ) : List ℤ :=
  1 :: npDiff stim2twopfr

/-- `stim_idx = np.where(stim2twopfr_diff)[0]` (positions of the non-zero
differences). -/
def stimIdxRaw (d : List ℤ) : List ℕ :=
  (List.range d.length).filter (fun i => d.getD i 0 ≠ 0)

/-- `dropped = np.where(stim2twopfr_diff > 1)[0]`. -/
def droppedIdx (d : List ℤ) : List ℕ :=
  (List.range d.length).filter (fun i => d.getD i 0 > 1)

/-- One iteration of the dropped-sequence repair loop: find the position of
`drop` in `stim_idx`, and insert `stim2twopfr_diff[drop] - 1` copies of the
previous (last valid) stimulus-frame index before it
(`np.insert(stim_idx, loc, add)`). `loc` is always ≥ 1 on reachable inputs
(position 0 carries the prepended difference 1, so 0 is never dropped),
hence the `ℕ` truncation in `loc - 1` is faithful. -/
def repairOne (d : List ℤ) (stim_idx : List ℕ) (drop : ℕ) : List ℕ :=
  let loc := stim_idx.findIdx (fun v => v == drop)
  let add := List.replicate ((d.getD drop 0) - 1).toNat
    (stim_idx.getD (loc - 1) 0)
  stim_idx.take loc ++ add ++ stim_idx.drop loc

/-- The repaired `stim_idx` as computed by `Session._get_twop2stimfr`
(session.py): the repair loop iterates over `dropped[-1:]`, i.e. over at
most the **last** dropped sequence. -/
def twop2stimfr_stim_idx (stim2twopfr : List ℤ) : List ℕ :=
  let d := twop2stimfr_diff stim2twopfr
  let stim_idx := stimIdxRaw d
  let dropped := droppedIdx d
  (dropped.drop (dropped.length - 1)).foldl (repairOne d) stim_idx

/-- Modelled from the spec: the dropped-frame backfill "applied to every
such dropped-frame sequence in the array" — the same repair loop iterating
over the whole `dropped` list rather than `dropped[-1:]`. -/
def twop2stimfr_stim_idx_all (stim2twopfr : List ℤ) : List ℕ :=
  let d := twop2stimfr_diff stim2twopfr
  let stim_idx := stimIdxRaw d
  let dropped := droppedIdx d
  dropped.foldl (repairOne d) stim_idx

/-- Whether `_get_twop2stimfr` logs the dropped-sequence warning
(`len(dropped) > 0`). -/
def twop2stimfr_warns (stim2twopfr : List ℤ) : Bool :=
  decide (droppedIdx (twop2stimfr_diff stim2twopfr) ≠ [])

/-- The full `twop2stimfr` array: `np.full(len(twop2pupfr), np.nan)` with
`[start:end]` assigned from the repaired `stim_idx`; the numpy slice
assignment raises on length mismatch (caught by the blanket `except`,
leaving the all-NaN array). -/
def get_twop2stimfr (stim2twopfr : List ℤ) (n_twop2pupfr : ℕ) :
    List (Option ℕ) :=
  let si := twop2stimfr_stim_idx stim2twopfr
  let start := (stim2twopfr.headD 0).toNat
  let e := ((stim2twopfr.getLastD 0) + 1).toNat
  let base : List (Option ℕ) := List.replicate n_twop2pupfr none
  if min e n_twop2pupfr - min start n_twop2pupfr = si.length then
    base.mapIdx
      (fun i x => if start ≤ i ∧ i < e then some (si.getD (i - start) 0)
        else x)
  else
    base

/-- C5 (code bug): on an alignment array with two dropped-frame sequences
(`[0, 1, 3, 4, 6, 7]`, gaps at positions 2 and 4), the code backfills only
the **last** sequence (`for drop in dropped[-1:]`), producing a `stim_idx`
one element short of the spec-described repair of every sequence; the
resulting length mismatch then makes the slice assignment fail, leaving the
whole `twop2stimfr` array NaN. The warning is logged as described. -/
theorem twop2stimfr_repairs_last_drop_only :
    twop2stimfr_stim_idx [0, 1, 3, 4, 6, 7] = [0, 1, 2, 3, 3, 4, 5] ∧
    twop2stimfr_stim_idx_all [0, 1, 3, 4, 6, 7] = [0, 1, 1, 2, 3, 3, 4, 5] ∧
    twop2stimfr_stim_idx [0, 1, 3, 4, 6, 7] ≠
      twop2stimfr_stim_idx_all [0, 1, 3, 4, 6, 7] ∧
    twop2stimfr_warns [0, 1, 3, 4, 6, 7] = true ∧
    get_twop2stimfr [0, 1, 3, 4, 6, 7] 10 = List.replicate 10 none := by
  refine ⟨by decide, by decide, by decide, by decide, by decide⟩

/-! ### Running-speed outlier repair (`Session._load_run_speed`) -/

/-- `np.diff` on rationals. -/
def runDiff (l : List ℚ) : List ℚ :=
  (l.zip l.tail).map (fun p => p.2 - p.1)

/-- `out_idx = np.where((run_diff < -diff_thr) | (run_diff > diff_thr))[0]`. -/
def outIdx (run0 : List ℚ) (thr : ℚ) : List ℕ :=
  (List.range (runDiff run0).length).filter
    (fun i => decide ((runDiff run0).getD i 0 < -thr) ||
      decide ((runDiff run0).getD i 0 > thr))

/-- `np.absolute(a - b) > thr` with NaN semantics (`none` = NaN, any
comparison against NaN is false). -/
def absDiffGT (a b : Option ℚ) (thr : ℚ) : Bool :=
  match a, b with
  | some x, some y => decide (|x - y| > thr)
  | _, _ => false

/-- `np.absolute(a) > thr` with NaN semantics. -/
def absGT (a : Option ℚ) (thr : ℚ) : Bool :=
  match a with
  | some x => decide (|x| > thr)
  | none => false

/-- The inner `while np.absolute(self.run[idx + 1] - comp_val) > diff_thr`
loop: NaN out the next sample and advance while the comparison holds.
Fuel-structured; a read past the end of the array yields NaN and stops the
loop (the source would raise `IndexError` there — no theorem below relies
on that path). Returns the updated array and the final `idx`. -/
def nanWhile (thr : ℚ) (comp : Option ℚ) :
    List (Option ℚ) → ℕ → ℕ → (List (Option ℚ) × ℕ)
  | run, idx, 0 => (run, idx)
  | run, idx, Nat.succ fuel =>
    if absDiffGT (run.getD (idx + 1) none) comp thr then
      nanWhile thr comp (run.set (idx + 1) none) (idx + 1) fuel
    else
      (run, idx)

/-- `np.mean([a, b])` with NaN propagation. -/
def meanOpt (a b : Option ℚ) : Option ℚ :=
  match a, b with
  | some x, some y => some ((x + y) / 2)
  | _, _ => none

/-- The numpy slice assignment `l[a:b] = v` (on an index window given as
integers, since `orig + 1` can be 0 with `orig = -1`): element `i` becomes
`v` iff `a ≤ i < b`. -/
def setSlice : List (Option ℚ) → ℤ → ℤ → Option ℚ → List (Option ℚ)
  | [], _, _, _ => []
  | x :: xs, a, b, v =>
    (if a ≤ 0 ∧ 0 < b then v else x) :: setSlice xs (a - 1) (b - 1) v

/-- The outer `for idx in out_idx` loop of `Session._load_run_speed`,
threading `(run, run_interp, at_idx)`: indices at or below `at_idx` are
skipped; otherwise the run of outliers starting after `idx` is NaNed out
(against `comp_val`, which is the value at `idx`, or 0 for `idx = 0`, in
which case an out-of-threshold first sample is itself NaNed and `orig`
becomes −1), and the interpolated array gets the mean of `comp_val` and the
first in-threshold value over the NaNed window. -/
def processOut (thr : ℚ) :
    List ℕ → (List (Option ℚ) × List (Option ℚ) × ℤ) →
      (List (Option ℚ) × List (Option ℚ) × ℤ)
  | [], st => st
  | idx :: rest, (run, interp, at_idx) =>
    if (idx : ℤ) > at_idx then
      let comp : Option ℚ := if idx = 0 then some 0 else run.getD idx none
      let start : List (Option ℚ) × ℤ :=
        if idx = 0 then
          (if absGT (run.getD 0 none) thr then (run.set 0 none, -1)
            else (run, 0))
        else (run, (idx : ℤ))
      let run2idx := nanWhile thr comp start.1 idx start.1.length
      let interp2 := setSlice interp (start.2 + 1) ((run2idx.2 : ℤ) + 1)
        (meanOpt comp (run2idx.1.getD (run2idx.2 + 1) none))
      processOut thr rest (run2idx.1, interp2, (run2idx.2 : ℤ))
    else
      processOut thr rest (run, interp, at_idx)

/-- `Session._load_run_speed` (session.py): returns the pair
`(run, run_interp)` — the running-speed array with outlier runs NaNed, and
its copy with the NaNed windows filled by `np.mean([comp_val, next good])`.
The default outlier threshold is the source default `diff_thr = 100`. -/
def load_run_speed (run0 : List ℚ) (diff_thr : ℚ := 100) :
    List (Option ℚ) × List (Option ℚ) :=
  let st := processOut diff_thr (outIdx run0 diff_thr)
    (run0.map some, run0.map some, -1)
  (st.1, st.2.1)

/-- The call `self._load_run_speed()` made by `Session._load_stim_dict`
(session.py): no explicit threshold, so the default applies. -/
def load_stim_dict_run (run0 : List ℚ) :
    List (Option ℚ) × List (Option ℚ) :=
  load_run_speed run0

theorem getD_append_length {α : Type} (l1 l2 : List α) (k : ℕ) (d : α) :
    (l1 ++ l2).getD (l1.length + k) d = l2.getD k d := by
  induction l1 with
  | nil => simp
  | cons a l ih => simpa [Nat.succ_add] using ih

theorem set_append_length {α : Type} (l1 : List α) (x b : α) (l2 : List α) :
    (l1 ++ x :: l2).set l1.length b = l1 ++ b :: l2 := by
  induction l1 with
  | nil => simp
  | cons a l ih => simp [List.set, ih]

/-- The inner while loop on a window of out-of-threshold values: every
sample of `bad` deviates from `comp = u` by more than `thr`, the first
value after the window (`v`) does not, so the loop NaNs exactly the `bad`
window and stops before `v`. -/
theorem nanWhile_clears {thr u v : ℚ} (hv : ¬ |v - u| > thr) :
    ∀ (bad : List ℚ) (pre post : List (Option ℚ)) (j fuel : ℕ),
      (∀ y ∈ bad, |y - u| > thr) →
      j + 1 = pre.length → bad.length < fuel →
      nanWhile thr (some u) (pre ++ bad.map some ++ some v :: post) j fuel =
        (pre ++ bad.map (fun _ => (none : Option ℚ)) ++ some v :: post,
          j + bad.length) := by
  intro bad
  induction bad with
  | nil =>
    intro pre post j fuel hball hj hfuel
    cases fuel with
    | zero => omega
    | succ f =>
      have hget : (pre ++ ([] : List ℚ).map some ++ some v :: post).getD
          (j + 1) none = some v := by
        have := getD_append_length pre (some v :: post) 0 (none : Option ℚ)
        simpa [hj] using this
      simp only [nanWhile, hget]
      simp [absDiffGT, hv]
  | cons y ys ih =>
    intro pre post j fuel hball hj hfuel
    cases fuel with
    | zero => omega
    | succ f =>
      have hform : pre ++ (y :: ys).map some ++ some v :: post =
          pre ++ some y :: (ys.map some ++ some v :: post) := by
        simp
      have hget : (pre ++ (y :: ys).map some ++ some v :: post).getD
          (j + 1) none = some y := by
        rw [hform]
        have := getD_append_length pre
          (some y :: (ys.map some ++ some v :: post)) 0 (none : Option ℚ)
        simpa [hj] using this
      have hcond : absDiffGT (some y) (some u) thr = true := by
        simpa [absDiffGT] using hball y (by simp)
      have hset : (pre ++ (y :: ys).map some ++ some v :: post).set
          (j + 1) none = (pre ++ [none]) ++ ys.map some ++ some v :: post := by
        rw [hform, hj]
        rw [set_append_length]
        simp
      simp only [nanWhile, hget, hcond, if_pos]
      rw [hset]
      have hrec := ih (pre ++ [none]) post (j + 1) f
        (fun z hz => hball z (List.mem_cons_of_mem _ hz))
        (by simp [← hj]) (by simpa using Nat.lt_of_succ_lt_succ hfuel)
      rw [hrec, Prod.mk.injEq]
      refine ⟨by simp, by simp [List.length_cons]; omega⟩

theorem setSlice_append (l1 l2 : List (Option ℚ)) (a b : ℤ) (v : Option ℚ) :
    setSlice (l1 ++ l2) a b v =
      setSlice l1 a b v ++
        setSlice l2 (a - l1.length) (b - l1.length) v := by
  induction l1 generalizing a b with
  | nil => simp [setSlice]
  | cons x xs ih =>
    simp only [List.cons_append, setSlice, List.length_cons, List.append_eq]
    rw [ih]
    have h1 : a - 1 - (xs.length : ℤ) = a - ((xs.length + 1 : ℕ) : ℤ) := by
      push_cast
      ring
    have h2 : b - 1 - (xs.length : ℤ) = b - ((xs.length + 1 : ℕ) : ℤ) := by
      push_cast
      ring
    rw [h1, h2]

theorem setSlice_keep (l : List (Option ℚ)) (a b : ℤ) (v : Option ℚ)
    (h : (l.length : ℤ) ≤ a ∨ b ≤ 0) : setSlice l a b v = l := by
  induction l generalizing a b with
  | nil => rfl
  | cons x xs ih =>
    simp only [List.length_cons] at h
    have hcond : ¬(a ≤ 0 ∧ 0 < b) := by omega
    have hnext : ((xs.length : ℤ) ≤ a - 1 ∨ b - 1 ≤ 0) := by omega
    simp only [setSlice, if_neg hcond]
    rw [ih _ _ hnext]

theorem setSlice_fill (l : List (Option ℚ)) (a b : ℤ) (v : Option ℚ)
    (ha : a ≤ 0) (hb : (l.length : ℤ) ≤ b) :
    setSlice l a b v = l.map (fun _ => v) := by
  induction l generalizing a b with
  | nil => rfl
  | cons x xs ih =>
    simp only [List.length_cons] at hb
    have hcond : a ≤ 0 ∧ 0 < b := by omega
    simp only [setSlice, if_pos hcond, List.map_cons]
    rw [ih (a - 1) (b - 1) (by omega) (by omega)]

/-- `setSlice` on the exact window of the middle part of a concatenation
replaces that part and keeps the rest. -/
theorem setSlice_window (l1 l2 l3 : List (Option ℚ)) (v : Option ℚ) :
    setSlice (l1 ++ l2 ++ l3) (l1.length : ℤ)
      ((l1.length : ℤ) + (l2.length : ℤ)) v =
      l1 ++ l2.map (fun _ => v) ++ l3 := by
  rw [List.append_assoc, setSlice_append]
  rw [setSlice_keep l1 _ _ _ (Or.inl (le_refl _))]
  rw [setSlice_append]
  rw [setSlice_fill l2 _ _ _ (by omega) (by omega)]
  rw [setSlice_keep l3 _ _ _ (by right; omega)]
  simp

theorem processOut_skip (thr : ℚ) (outs : List ℕ)
    (st : List (Option ℚ) × List (Option ℚ) × ℤ)
    (h : ∀ i ∈ outs, ¬((i : ℤ) > st.2.2)) :
    processOut thr outs st = st := by
  induction outs with
  | nil =>
    obtain ⟨run, interp, at_idx⟩ := st
    rfl
  | cons i rest ih =>
    obtain ⟨run, interp, at_idx⟩ := st
    simp only [processOut, if_neg (h i (List.mem_cons_self i rest))]
    exact ih (fun x hx => h x (List.mem_cons_of_mem _ hx))

/-- Pulling the first satisfied index out of a `filter` over `range`:
if nothing below `la` satisfies `P` and `la` does, the filter is `la`
followed by the indices above `la` that satisfy `P`. -/
theorem filter_range_cons {P : ℕ → Bool} {n la : ℕ} (hn : la < n)
    (hP : P la = true) (hlow : ∀ i, i < la → P i = false) :
    (List.range n).filter P =
      la :: (List.range n).filter (fun i => P i && decide (la < i)) := by
  obtain ⟨m, rfl⟩ : ∃ m, n = la + 1 + m := ⟨n - (la + 1), by omega⟩
  clear hn
  induction m with
  | zero =>
    rw [show la + 1 + 0 = la + 1 from rfl, List.range_succ,
      List.filter_append, List.filter_append]
    have hnil : (List.range la).filter P = [] :=
      List.filter_eq_nil_iff.mpr
        (fun i hi => by simp [hlow i (List.mem_range.mp hi)])
    have hnil2 : (List.range la).filter
        (fun i => P i && decide (la < i)) = [] :=
      List.filter_eq_nil_iff.mpr
        (fun i hi => by simp [hlow i (List.mem_range.mp hi)])
    rw [hnil, hnil2]
    simp [hP]
  | succ k ih =>
    rw [show la + 1 + (k + 1) = (la + 1 + k) + 1 by ring, List.range_succ,
      List.filter_append, List.filter_append, ih]
    have hsame : [la + 1 + k].filter P =
        [la + 1 + k].filter (fun i => P i && decide (la < i)) := by
      simp only [List.filter]
      have : decide (la < la + 1 + k) = true := by simp; omega
      rw [this]
      simp
    rw [hsame]
    simp

theorem getD_append_left {α : Type} (l1 l2 : List α) (i : ℕ) (d : α)
    (h : i < l1.length) : (l1 ++ l2).getD i d = l1.getD i d := by
  induction l1 generalizing i with
  | nil => simp at h
  | cons x xs ih =>
    cases i with
    | zero => rfl
    | succ k =>
      simp only [List.cons_append, List.getD_cons_succ]
      exact ih k (by simpa using h)

theorem runDiff_cons_cons (x y : ℚ) (l : List ℚ) :
    runDiff (x :: y :: l) = (y - x) :: runDiff (y :: l) := rfl

theorem runDiff_length (l : List ℚ) : (runDiff l).length = l.length - 1 := by
  cases l with
  | nil => rfl
  | cons x xs =>
    simp [runDiff, List.length_zip]

theorem runDiff_getD (l : List ℚ) (i : ℕ) (h : i + 1 < l.length) :
    (runDiff l).getD i 0 = l.getD (i + 1) 0 - l.getD i 0 := by
  induction l generalizing i with
  | nil => simp at h
  | cons x xs ih =>
    cases xs with
    | nil => simp at h
    | cons y ys =>
      cases i with
      | zero => simp [runDiff_cons_cons]
      | succ k =>
        rw [runDiff_cons_cons]
        simp only [List.getD_cons_succ]
        exact ih k (by simpa using h)

theorem getD_eq_get (l : List ℚ) (i : ℕ) (h : i < l.length) :
    l.getD i 0 = l.get ⟨i, h⟩ := by
  simp [List.getD_eq_getElem?_getD, List.getElem?_eq_getElem h]

/-- Bridge from `Chain'` bounds to indexed consecutive differences. -/
theorem chain'_diff_le {thr : ℚ} {l : List ℚ}
    (hc : List.Chain' (fun x y => |y - x| ≤ thr) l) (i : ℕ)
    (h : i + 1 < l.length) : |l.getD (i + 1) 0 - l.getD i 0| ≤ thr := by
  rw [List.chain'_iff_get] at hc
  have hi := hc i (by omega)
  rw [getD_eq_get l i (by omega), getD_eq_get l (i + 1) h]
  simpa using hi

/-- The out-of-threshold test of `outIdx` is the absolute-difference test. -/
theorem outP_iff (x thr : ℚ) :
    (decide (x < -thr) || decide (x > thr)) = true ↔ |x| > thr := by
  simp only [Bool.or_eq_true, decide_eq_true_eq, gt_iff_lt, lt_abs]
  constructor
  · rintro (h | h)
    · right
      linarith
    · left
      linarith
  · rintro (h | h)
    · right
      linarith
    · left
      linarith

/-- C6 (amended, general part): an input consisting of a good prefix
`a ++ [u]` (consecutive differences within threshold, `a` non-empty), an
outlier window `bad` (every sample further than `thr` from `u`), and a good
suffix `v :: b` (`v` within `thr` of `u`, consecutive differences within
threshold): the exclude output NaNs exactly the window, and the
interpolated output fills the window with the constant
`(u + v) / 2 = np.mean([comp_val, next good])`. -/
theorem load_run_speed_outlier_run_general (a b bad : List ℚ) (u v thr : ℚ)
    (ha : a ≠ []) (hbad : bad ≠ [])
    (hca : List.Chain' (fun x y => |y - x| ≤ thr) (a ++ [u]))
    (hball : ∀ y ∈ bad, |y - u| > thr)
    (hv : |v - u| ≤ thr)
    (hcb : List.Chain' (fun x y => |y - x| ≤ thr) (v :: b)) :
    load_run_speed (a ++ u :: bad ++ v :: b) thr =
      (a.map some ++ some u :: bad.map (fun _ => none) ++
        some v :: b.map some,
       a.map some ++ some u :: bad.map (fun _ => some ((u + v) / 2)) ++
        some v :: b.map some) := by
  set run0 : List ℚ := a ++ u :: bad ++ v :: b with hrun0def
  set la := a.length with hla
  set lb := bad.length with hlb
  set lB := b.length with hlB
  have hlen0 : run0.length = la + 1 + lb + 1 + lB := by
    simp [hrun0def]
    omega
  have hn : (runDiff run0).length = la + lb + lB + 1 := by
    rw [runDiff_length, hlen0]
    omega
  -- getD facts on run0
  have hget_low : ∀ i, i ≤ la → run0.getD i 0 = (a ++ [u]).getD i 0 := by
    intro i hi
    have hsplit : run0 = (a ++ [u]) ++ (bad ++ v :: b) := by
      simp [hrun0def]
    rw [hsplit]
    exact getD_append_left _ _ _ _ (by simp; omega)
  have hget_u : run0.getD la 0 = u := by
    rw [hget_low la (le_refl la)]
    have := getD_append_length a [u] 0 (0 : ℚ)
    simpa using this
  obtain ⟨y0, ys, rfl⟩ := List.exists_cons_of_ne_nil hbad
  have hget_bad0 : run0.getD (la + 1) 0 = y0 := by
    have hsplit : run0 = (a ++ [u]) ++ (y0 :: (ys ++ v :: b)) := by
      simp [hrun0def]
    rw [hsplit]
    have h1 : (a ++ [u]).length = la + 1 := by simp
    have := getD_append_length (a ++ [u]) (y0 :: (ys ++ v :: b)) 0 (0 : ℚ)
    rw [h1] at this
    simpa using this
  have hget_high : ∀ k, run0.getD (la + 1 + lb + k) 0 = (v :: b).getD k 0 := by
    intro k
    have hsplit : run0 = (a ++ u :: (y0 :: ys)) ++ (v :: b) := by
      simp [hrun0def]
    have h1 : (a ++ u :: (y0 :: ys)).length = la + 1 + lb := by
      simp [hlb]
      omega
    rw [hsplit]
    have := getD_append_length (a ++ u :: (y0 :: ys)) (v :: b) k (0 : ℚ)
    rw [h1] at this
    exact this
  -- the out-of-threshold positions
  have hPlow : ∀ i, i < la →
      (decide ((runDiff run0).getD i 0 < -thr) ||
        decide ((runDiff run0).getD i 0 > thr)) = false := by
    intro i hi
    rw [Bool.eq_false_iff]
    intro hP
    rw [outP_iff] at hP
    rw [runDiff_getD run0 i (by omega)] at hP
    rw [hget_low i (by omega), hget_low (i + 1) (by omega)] at hP
    have := chain'_diff_le hca i (by simp; omega)
    exact absurd hP (not_lt.mpr this)
  have hPla : (decide ((runDiff run0).getD la 0 < -thr) ||
      decide ((runDiff run0).getD la 0 > thr)) = true := by
    rw [outP_iff]
    rw [runDiff_getD run0 la (by omega)]
    rw [hget_u, hget_bad0]
    exact hball y0 (by simp)
  have hPhigh : ∀ i, la + lb < i → i < (runDiff run0).length →
      (decide ((runDiff run0).getD i 0 < -thr) ||
        decide ((runDiff run0).getD i 0 > thr)) = false := by
    intro i hi hi2
    rw [Bool.eq_false_iff]
    intro hP
    rw [outP_iff] at hP
    rw [runDiff_getD run0 i (by omega)] at hP
    obtain ⟨k, rfl⟩ : ∃ k, i = la + 1 + lb + k := ⟨i - (la + 1 + lb), by omega⟩
    rw [hget_high k] at hP
    have hk1 : la + 1 + lb + k + 1 = la + 1 + lb + (k + 1) := by omega
    rw [hk1, hget_high (k + 1)] at hP
    have := chain'_diff_le hcb k (by simp [hlB]; omega)
    exact absurd hP (not_lt.mpr this)
  -- outIdx = la :: rest, rest within (la, la + lb]
  have hout : outIdx run0 thr =
      la :: (List.range (runDiff run0).length).filter
        (fun i => (decide ((runDiff run0).getD i 0 < -thr) ||
          decide ((runDiff run0).getD i 0 > thr)) && decide (la < i)) := by
    exact filter_range_cons (by omega) hPla hPlow
  have hrest : ∀ i ∈ (List.range (runDiff run0).length).filter
      (fun i => (decide ((runDiff run0).getD i 0 < -thr) ||
        decide ((runDiff run0).getD i 0 > thr)) && decide (la < i)),
      i ≤ la + lb := by
    intro i hi
    rw [List.mem_filter, Bool.and_eq_true] at hi
    obtain ⟨hiR, hPi, hlai⟩ := hi
    by_contra hgt
    have := hPhigh i (by omega) (List.mem_range.mp hiR)
    rw [this] at hPi
    cases hPi
  -- the arrays in window form
  have hmap : run0.map some =
      (a.map some ++ [some u]) ++ (y0 :: ys).map some ++
        some v :: b.map some := by
    simp [hrun0def]
  -- main computation
  have hcomp : (run0.map some).getD la none = some u := by
    rw [hmap]
    rw [getD_append_left ((a.map some ++ [some u]) ++ (y0 :: ys).map some)
      (some v :: b.map some) la (none : Option ℚ) (by simp)]
    rw [getD_append_left (a.map some ++ [some u]) ((y0 :: ys).map some) la
      (none : Option ℚ) (by simp)]
    have h1 : (a.map some).length = la := by simp
    have h2 := getD_append_length (a.map some) [some u] 0 (none : Option ℚ)
    rw [h1] at h2
    simpa using h2
  have hla0 : la ≠ 0 := by
    intro h0
    exact ha (List.eq_nil_of_length_eq_zero (hla ▸ h0))
  have hwhile := nanWhile_clears
    (show ¬ |v - u| > thr from not_lt.mpr hv) (y0 :: ys) (a.map some ++ [some u]) (b.map some) la
    (((a.map some ++ [some u]) ++ (y0 :: ys).map some ++
      some v :: b.map some).length)
    hball (by simp) (by simp; omega)
  have hread : ((a.map some ++ [some u]) ++
      (y0 :: ys).map (fun _ => (none : Option ℚ)) ++
      some v :: b.map some).getD (la + (y0 :: ys).length + 1) none
      = some v := by
    have h1 : ((a.map some ++ [some u]) ++
        (y0 :: ys).map (fun _ => (none : Option ℚ))).length =
        la + (y0 :: ys).length + 1 := by
      simp
      omega
    have h2 := getD_append_length ((a.map some ++ [some u]) ++
      (y0 :: ys).map (fun _ => (none : Option ℚ))) (some v :: b.map some) 0
      (none : Option ℚ)
    rw [h1] at h2
    simpa using h2
  have hsl : setSlice ((a.map some ++ [some u]) ++ (y0 :: ys).map some ++
      some v :: b.map some) ((la : ℤ) + 1)
      (((la + (y0 :: ys).length : ℕ) : ℤ) + 1) (some ((u + v) / 2)) =
      (a.map some ++ [some u]) ++
        ((y0 :: ys).map some).map (fun _ => some ((u + v) / 2)) ++
        some v :: b.map some := by
    have h1 : ((la : ℤ) + 1) =
        (((a.map some ++ [some u]).length : ℕ) : ℤ) := by
      simp
    have h2 : (((la + (y0 :: ys).length : ℕ) : ℤ) + 1) =
        (((a.map some ++ [some u]).length : ℕ) : ℤ) +
          ((((y0 :: ys).map some).length : ℕ) : ℤ) := by
      simp
      push_cast
      ring
    rw [h1, h2]
    exact setSlice_window (a.map some ++ [some u]) ((y0 :: ys).map some)
      (some v :: b.map some) (some ((u + v) / 2))
  have hskip : ∀ i ∈ (List.range (runDiff run0).length).filter
      (fun i => (decide ((runDiff run0).getD i 0 < -thr) ||
        decide ((runDiff run0).getD i 0 > thr)) && decide (la < i)),
      ¬((i : ℤ) > ((la + (y0 :: ys).length : ℕ) : ℤ)) := by
    intro i hi
    have := hrest i hi
    rw [hlb] at this
    omega
  simp only [load_run_speed]
  rw [hout]
  simp only [processOut]
  rw [if_pos (show ((la : ℕ) : ℤ) > -1 by omega)]
  simp only [if_neg hla0, hcomp]
  rw [hmap, hwhile]
  dsimp only
  rw [hread]
  simp only [meanOpt]
  rw [hsl]
  rw [processOut_skip thr _ _ hskip]
  simp [List.map_map, Function.comp_def, List.map_const']

/-- Counterexample to C6 as stated: for the two-sample outlier run in
`[7, 7, 100, 100, 37]` with threshold 50, the interpolated output holds the
constant mean `(7 + 37)/2 = 22` at both repaired positions, whereas the
linear interpolation between the last good value 7 (index 1) and the first
good value 37 (index 4) would give 17 and 27. -/
theorem load_run_speed_interp_counterexample :
    (load_run_speed [7, 7, 100, 100, 37] 50).2 =
      [some 7, some 7, some 22, some 22, some 37] ∧
    (7 : ℚ) + (37 - 7) * 1 / 3 = 17 ∧
    (7 : ℚ) + (37 - 7) * 2 / 3 = 27 ∧
    (22 : ℚ) ≠ 17 ∧ (22 : ℚ) ≠ 27 := by
  refine ⟨?_, by norm_num, by norm_num, by norm_num, by norm_num⟩
  have h := load_run_speed_outlier_run_general [7] [] [100, 100] 7 37 50
    (by simp) (by simp)
    (by norm_num [List.chain'_cons])
    (by intro y hy
        have hy' : y = (100 : ℚ) := by simpa using hy
        rw [hy']
        norm_num)
    (by norm_num)
    (by norm_num [List.chain'_cons])
  rw [show ([7] ++ 7 :: [100, 100] ++ 37 :: [] : List ℚ)
      = [7, 7, 100, 100, 37] from by norm_num] at h
  rw [h]
  norm_num

/-- C6 (amended): an outlier run (every sample further than the threshold
from the last good value `u` before it, with a good sample `v` right after
and in-threshold differences elsewhere) is replaced by NaN in the exclude
output and by the constant `np.mean([u, v]) = (u + v)/2` in the
interpolated output — the linear midpoint, constant across the window
rather than a pointwise linear interpolation; in particular
`[0, 1, 2, 200, 3, 4]` with `diff_thr = 50` gives `[0, 1, 2, NaN, 3, 4]`
and `[0, 1, 2, 5/2, 3, 4]`. -/
theorem load_run_speed_outlier_repair :
    (∀ (a b bad : List ℚ) (u v thr : ℚ),
      a ≠ [] → bad ≠ [] →
      List.Chain' (fun x y => |y - x| ≤ thr) (a ++ [u]) →
      (∀ y ∈ bad, |y - u| > thr) →
      |v - u| ≤ thr →
      List.Chain' (fun x y => |y - x| ≤ thr) (v :: b) →
      load_run_speed (a ++ u :: bad ++ v :: b) thr =
        (a.map some ++ some u :: bad.map (fun _ => none) ++
          some v :: b.map some,
         a.map some ++ some u :: bad.map (fun _ => some ((u + v) / 2)) ++
          some v :: b.map some)) ∧
    load_run_speed [0, 1, 2, 200, 3, 4] 50 =
      ([some 0, some 1, some 2, none, some 3, some 4],
       [some 0, some 1, some 2, some (5 / 2), some 3, some 4]) := by
  constructor
  · exact load_run_speed_outlier_run_general
  · have h := load_run_speed_outlier_run_general [0, 1] [4] [200] 2 3 50
      (by simp) (by simp)
      (by norm_num [List.chain'_cons])
      (by intro y hy
          have hy' : y = (200 : ℚ) := by simpa using hy
          rw [hy']
          norm_num)
      (by norm_num)
      (by norm_num [List.chain'_cons])
    rw [show ([0, 1] ++ 2 :: [200] ++ 3 :: [4] : List ℚ)
        = [0, 1, 2, 200, 3, 4] from by norm_num] at h
    rw [h]
    norm_num

/-- Closed witness for `load_run_speed_outlier_repair`: the general law
applied to the concrete scenario `[0, 1, 2, 200, 3, 4]`, threshold 50. -/
theorem load_run_speed_outlier_repair_witness :
    load_run_speed ([0, 1] ++ 2 :: [200] ++ 3 :: [4]) 50 =
      (([0, 1] : List ℚ).map some ++ some 2 ::
        ([200] : List ℚ).map (fun _ => none) ++
        some 3 :: ([4] : List ℚ).map some,
       ([0, 1] : List ℚ).map some ++ some 2 ::
        ([200] : List ℚ).map (fun _ => some ((2 + 3) / 2)) ++
        some 3 :: ([4] : List ℚ).map some) :=
  load_run_speed_outlier_repair.1 [0, 1] [4] [200] 2 3 50
    (by simp) (by simp)
    (by norm_num [List.chain'_cons])
    (by intro y hy
        have hy' : y = (200 : ℚ) := by simpa using hy
        rw [hy']
        norm_num)
    (by norm_num)
    (by norm_num [List.chain'_cons])

/-- Counterexample to C7 as stated: loading `[0, 60, 120]` without an
explicit threshold flags nothing, although both consecutive differences are
60 > 50 — the default threshold is not 50. -/
theorem load_run_speed_default_counterexample :
    (load_stim_dict_run [0, 60, 120]).1 = [some 0, some 60, some 120] ∧
    (60 : ℚ) - 0 > 50 := by
  constructor
  · have hout : outIdx [0, 60, 120] 100 = [] := by
      norm_num [outIdx, runDiff, List.zip, List.range_succ,
        List.filter_append]
    simp [load_stim_dict_run, load_run_speed, hout, processOut]
  · norm_num

/-- C7 (amended): `Session._load_stim_dict` loads the running speed with no
explicit threshold, so the source default `diff_thr = 100` applies: a
difference of 60 is not flagged, while a difference of 150 is NaNed in the
exclude output. -/
theorem load_run_speed_default_100 :
    (∀ run0 : List ℚ, load_stim_dict_run run0 = load_run_speed run0 100) ∧
    (load_stim_dict_run [0, 60, 120]).1 = [some 0, some 60, some 120] ∧
    (load_stim_dict_run [0, 150, 0]).1 = [some 0, none, some 0] := by
  refine ⟨fun run0 => rfl, ?_, ?_⟩
  · have hout : outIdx [0, 60, 120] 100 = [] := by
      norm_num [outIdx, runDiff, List.zip, List.range_succ,
        List.filter_append]
    simp [load_stim_dict_run, load_run_speed, hout, processOut]
  · have hout : outIdx [0, 150, 0] 100 = [0, 1] := by
      norm_num [outIdx, runDiff, List.zip, List.range_succ,
        List.filter_append]
    norm_num [load_stim_dict_run, load_run_speed, hout, processOut,
      nanWhile, absDiffGT, absGT, meanOpt, setSlice]

/-! ### Sampling one representative per consecutive run
(`quint_analys.samp_quint_segs`) -/

/-- Modelled from the spec: `gen_util.consec(l, smallest=True)` (not under
`src/`): consecutive-run detection — splits the list into maximal runs of
values increasing by 1, returning the first element and length of each
run. Helper carrying the current run's start, previous value and length. -/
def consecAux (start prev : ℤ) (n : ℕ) : List ℤ → List (ℤ × ℕ)
  | [] => [(start, n)]
  | y :: ys =>
    if y = prev + 1 then consecAux start y (n + 1) ys
    else (start, n) :: consecAux y y 1 ys

/-- Modelled from the spec: the list of (run start, run length) pairs of
`gen_util.consec` (see `consecAux`). -/
def consecRuns : List ℤ → List (ℤ × ℕ)
  | [] => []
  | x :: xs => consecAux x x 1 xs

/-- The sampling loop of `samp_quint_segs`: walks the consecutive runs,
takes the window of `n` flat values at position `i`, trims it by the
pre/post margins, and — when the trimmed range `[min+pre, max-post)` is
non-empty — draws one representative (`np.random.choice`, modelled by the
explicit `choice` function); runs whose range is empty contribute
nothing. -/
def sampSegsAux (flat : List ℤ) (seg_pre seg_post : ℕ)
    (choice : List ℤ → ℤ) : List (ℤ × ℕ) → ℕ → List ℤ
  | [], _ => []
  | (_, n) :: rest, i =>
    let qu_sub := (flat.drop i).take n
    let min_seg := listMin qu_sub + seg_pre
    let max_seg := listMax qu_sub - seg_post
    (if min_seg < max_seg then
      [choice (qu_sub.filter
        (fun seg => decide (min_seg ≤ seg) && decide (seg < max_seg)))]
    else []) ++ sampSegsAux flat seg_pre seg_post choice rest (i + n)

/-- The sampled representatives (`samp_segs` in the source). -/
def sampSegs (flat : List ℤ) (seg_pre seg_post : ℕ)
    (choice : List ℤ → ℤ) : List ℤ :=
  sampSegsAux flat seg_pre seg_post choice (consecRuns flat) 0

/-- `quint_analys.samp_quint_segs` (quint_analys.py): flattens the
per-quintile segments, raises if the minimum consecutive difference is not
1 or 4 (also when there are fewer than two segments, where `min` of the
empty difference array raises), samples one representative per consecutive
run that survives the margins, and redistributes the samples into the
quintiles by each quintile's `[min, max)` segment range (raising on an
empty quintile sublist, where `min(sub_segs)` raises). `np.random.choice`
is modelled by the explicit `choice` argument. -/
def samp_quint_segs (qu_segs : List (List ℤ)) (seg_pre seg_post : ℕ)
    (choice : List ℤ → ℤ) : Except String (List (List ℤ) × List ℕ) :=
  let flat := qu_segs.flatten
  if npDiff flat = [] then
    .error "min() arg is an empty sequence"
  else if listMin (npDiff flat) ∉ ([1, 4] : List ℤ) then
    .error "No consecutive segments (1 or 4 interval) found in qu_segs."
  else
    let samp_segs := sampSegs flat seg_pre seg_post choice
    if qu_segs.any (fun sub => sub.isEmpty) then
      .error "min() arg is an empty sequence"
    else
      let qu_samp_segs := qu_segs.map (fun sub =>
        samp_segs.filter (fun seg =>
          decide (listMin sub ≤ seg) && decide (seg < listMax sub)))
      .ok (qu_samp_segs, qu_samp_segs.map List.length)

/-- A concrete stand-in for `np.random.choice` (any function works for the
deterministic paths exercised below). -/
def headChoice (l : List ℤ) : ℤ :=
  l.headD 0

/-- Counterexample to C9 as stated: on `[[0, 1, 2]]` with margins
`seg_pre = seg_post = 2` no consecutive run survives the margin filtering
(the trimmed range `[0+2, 2-2)` is empty), yet `samp_quint_segs` does not
raise — it returns an empty sample list with a zero count. -/
theorem samp_quint_segs_no_raise_counterexample :
    samp_quint_segs [[0, 1, 2]] 2 2 headChoice = .ok ([[]], [0]) ∧
    (∀ e, samp_quint_segs [[0, 1, 2]] 2 2 headChoice ≠ .error e) := by
  refine ⟨by decide, ?_⟩
  intro e h
  rw [show samp_quint_segs [[0, 1, 2]] 2 2 headChoice = .ok ([[]], [0])
    from by decide] at h
  cases h

/-- C9 (amended): `samp_quint_segs` raises exactly when the flattened
segment list has no consecutive structure (minimum consecutive difference
not in {1, 4}, including the fewer-than-two-segments case) or when some
quintile sublist is empty; when consecutive runs exist but none survives
the pre/post margin filtering, it returns an empty sample list and a zero
count per quintile instead of raising (there is no NaN-placeholder opt-in
in this function). -/
theorem samp_quint_segs_error_behaviour :
    (∀ (qu_segs : List (List ℤ)) (pre post : ℕ) (choice : List ℤ → ℤ),
      (∃ e, samp_quint_segs qu_segs pre post choice = .error e) ↔
        (npDiff qu_segs.flatten = [] ∨
          listMin (npDiff qu_segs.flatten) ∉ ([1, 4] : List ℤ) ∨
          qu_segs.any (fun sub => sub.isEmpty) = true)) ∧
    (∀ (qu_segs : List (List ℤ)) (pre post : ℕ) (choice : List ℤ → ℤ),
      listMin (npDiff qu_segs.flatten) ∈ ([1, 4] : List ℤ) →
      npDiff qu_segs.flatten ≠ [] →
      qu_segs.any (fun sub => sub.isEmpty) = false →
      sampSegs qu_segs.flatten pre post choice = [] →
      samp_quint_segs qu_segs pre post choice =
        .ok (qu_segs.map (fun _ => []), qu_segs.map (fun _ => 0))) := by
  constructor
  · intro qu_segs pre post choice
    simp only [samp_quint_segs]
    split_ifs with h1 h2 h3
    all_goals
      first
        | exact iff_of_true ⟨_, rfl⟩ (by tauto)
        | exact iff_of_false
            (fun hcon => by rcases hcon with ⟨e, he⟩; cases he)
            (by tauto)
  · intro qu_segs pre post choice h1 h2 h3 h4
    simp only [samp_quint_segs]
    rw [if_neg h2, if_neg (not_not_intro h1),
      if_neg (show ¬(qu_segs.any (fun sub => sub.isEmpty) = true) from by
        simp [h3])]
    rw [h4]
    simp

/-- Closed witness for `samp_quint_segs_error_behaviour`: the no-surviving-
run case `[[0, 1, 2]]` with margins 2/2 returns empty bins and zero counts,
and a gap of 2 (`[[0, 2]]`) raises. -/
theorem samp_quint_segs_error_behaviour_witness :
    samp_quint_segs [[0, 1, 2]] 2 2 headChoice =
      .ok (([[0, 1, 2]] : List (List ℤ)).map (fun _ => []),
        ([[0, 1, 2]] : List (List ℤ)).map (fun _ => 0)) ∧
    (∃ e, samp_quint_segs [[0, 2]] 0 0 headChoice = .error e) :=
  ⟨samp_quint_segs_error_behaviour.2 [[0, 1, 2]] 2 2 headChoice (by decide)
      (by decide) (by decide) (by decide),
    (samp_quint_segs_error_behaviour.1 [[0, 2]] 0 0 headChoice).mpr
      (Or.inr (Or.inl (by decide)))⟩

end OpenScope
